import Mathlib

/-!
Verification development for the tag-play release-reporting utility.

The repository consists of three TypeScript files:
  - fromClone.ts : clones a repository mirror, correlates tags with commits,
    links commits to pull requests, extracts Jira identifiers, and prints a
    categorized report;
  - tags.ts : fetches tags through the hosted API, resolves each tag to a
    commit date (with a fixed fallback date), groups tags by sha and sorts the
    groups by date;
  - an unnamed variant (part_000) with an earlier version of the categorizer
    and a walk-until-tag routine.

The definitions below are shallow embeddings of the functions of those files.
External effects (git subprocess output, the hosted API, the environment) are
passed in as explicit function parameters; JavaScript strings are modelled by
Lean strings and, where the code performs character-level surgery, by lists of
characters.  JavaScript `undefined` is modelled by `Option`.  Regular
expression scans are modelled by executable character scanners that implement
the exact patterns appearing in the source.
-/

namespace TagPlay

/-! ### Small string and set utilities shared by the embeddings -/

/-- Model of insertion into a JavaScript `Set` of strings: a `Set` preserves
insertion order and ignores an element that is already present. -/
def setAdd (l : List String) (x : String) : List String :=
  if x ∈ l then l else l ++ [x]

/-- Model of `new Set(xs)` built from an initial set `l` by adding the
elements of `xs` in order. -/
def setAddAll (l : List String) (xs : List String) : List String :=
  xs.foldl setAdd l

/-- Model of the JavaScript string method `trimEnd` used on tagger dates:
drop trailing whitespace. -/
def trimEnd (s : String) : String :=
  String.mk ((s.data.reverse.dropWhile Char.isWhitespace).reverse)

/-- Model of the JavaScript string method `trim` at the character level:
drop leading and trailing whitespace. -/
def charTrim (l : List Char) : List Char :=
  ((l.dropWhile Char.isWhitespace).reverse.dropWhile Char.isWhitespace).reverse

/-- Model of the JavaScript string method `toUpperCase` on the ASCII
identifiers the extraction produces: uppercase every character. -/
def toUpperStr (s : String) : String :=
  String.mk (s.data.map Char.toUpper)

/-- Digits-to-number conversion, modelling `Number(...)` applied to a string
of decimal digits captured by a regular expression. -/
def digitsToNat (l : List Char) : Nat :=
  l.foldl (fun n c => n * 10 + (c.toNat - '0'.toNat)) 0

/-- Model of the JavaScript split on the one-character delimiter given by
`split('|')` (used on the output of git for-each-ref).  The first arm
consumes a delimiter, the second prepends the current character to the first
component of the split of the rest. -/
def splitBar : List Char → List (List Char)
  | [] => [[]]
  | '|' :: rest => [] :: splitBar rest
  | c :: rest =>
    match splitBar rest with
    | s :: ss => (c :: s) :: ss
    | [] => [[c]]

/-- Model of the JavaScript split on the three-character delimiter given by
`split('|||')` (used on the output of git show in fetchRecentTagCommits).
Leftmost occurrences of the delimiter are consumed first, matching the
JavaScript scan order. -/
def splitTripleBar : List Char → List (List Char)
  | [] => [[]]
  | '|' :: '|' :: '|' :: rest => [] :: splitTripleBar rest
  | c :: rest =>
    match splitTripleBar rest with
    | s :: ss => (c :: s) :: ss
    | [] => [[c]]

/-! ### The commit walk of printCommitsWithPRAndJiraLinks / printCommitsUntilTagFound -/

/-- Model of one commit record as produced by git log with the pretty format
used in the walks: hash, author date, decorated refs, message subject. -/
structure WalkCommit where
  hash : String
  date : String
  refs : String
  message : String
deriving DecidableEq

/-- Model of the test `commit.refs && /tag:/.test(commit.refs)`: the refs
string is nonempty and contains the substring "tag:".  An empty string has no
infix equal to "tag:", so the truthiness guard is subsumed by the infix
test. -/
def hasTagRef (refs : String) : Bool :=
  decide (("tag:".data : List Char) <:+: refs.data)

/-- Model of printCommitsUntilTagFound from the unnamed variant: print every
commit until one whose refs contain a tag marker is found, and return that
commit hash, or none when no commit carries a tag. -/
def printCommitsUntilTagFound : List WalkCommit → Option String
  | [] => none
  | c :: cs => if hasTagRef c.refs then some c.hash else printCommitsUntilTagFound cs

/-! ### Regular expression scanners

The source uses three regular expressions on commit messages and pull request
text.  Each is modelled by an executable scanner over the character list of
the string, implementing the leftmost-match semantics of the JavaScript
engine for that concrete pattern. -/

/-- Scanner for the non-global pattern given by the prRegex literal: a hash
mark followed by one or more digits.  The result is the digit list of the
first (leftmost) match, or none when the message contains no such substring.
When a hash mark is not followed by a digit the scan resumes right after it,
as the JavaScript engine does after a failed match attempt. -/
def firstPRNumber : List Char → Option (List Char)
  | [] => none
  | c :: cs =>
    if c = '#' then
      let digs := cs.takeWhile Char.isDigit
      if digs.isEmpty then firstPRNumber cs else some digs
    else firstPRNumber cs

/-- Match attempt of the prRegex pattern at one fixed position: succeeds
exactly when the text starts with a hash mark followed by at least one digit,
returning the greedy digit run. -/
def prMatchAt (l : List Char) : Option (List Char) :=
  match l with
  | [] => none
  | c :: cs =>
    if c = '#' then
      if (cs.takeWhile Char.isDigit).isEmpty then none else some (cs.takeWhile Char.isDigit)
    else none

/-- Scanner for the global case-insensitive jiraIdRegex pattern: one or more
ASCII letters, a dash, then one to five digits (greedy).  The fuel argument
bounds the recursion; every step consumes at least one character, so fuel
equal to the length of the input suffices.  A maximal letter run that is not
followed by a dash and a digit can start no match at any of its positions, so
the scan resumes after the run, matching the engine behaviour. -/
def jiraScan : Nat → List Char → List String
  | 0, _ => []
  | _ + 1, [] => []
  | fuel + 1, c :: cs =>
    if c.isAlpha then
      let run := List.takeWhile Char.isAlpha (c :: cs)
      let rest := List.dropWhile Char.isAlpha (c :: cs)
      match rest with
      | '-' :: ds =>
        let digs := ds.takeWhile Char.isDigit
        if digs.isEmpty then jiraScan fuel rest
        else
          String.mk (run ++ '-' :: digs.take 5) :: jiraScan fuel (ds.drop (digs.take 5).length)
      | _ => jiraScan fuel rest
    else jiraScan fuel cs

/-- All matches of the jiraIdRegex pattern in a string, in scan order. -/
def jiraMatches (s : String) : List String :=
  jiraScan s.data.length s.data

/-- Case-insensitive literal prefix test returning the matched input
characters verbatim together with the remaining input, modelling the fixed
case-insensitive part of the jiraLinkRegex pattern. -/
def ciStarts : List Char → List Char → Option (List Char × List Char)
  | [], l => some ([], l)
  | _ :: _, [] => none
  | p :: ps, c :: cs =>
    if c.toLower = p.toLower then (ciStarts ps cs).map (fun m => (c :: m.1, m.2))
    else none

/-- Characters of the fixed Jira browse URL base used by the jiraLinkRegex
pattern and by jiraBaseUrl. -/
def jiraUrlBase : String :=
  "https://opentrons.atlassian.net/browse/"

/-- Match attempt of the jiraLinkRegex pattern at one position: the literal
base URL (case-insensitively), then one or more letters, a dash, and one or
more digits, everything greedy.  Returns the matched characters verbatim and
the rest of the input. -/
def urlMatchAt (l : List Char) : Option (List Char × List Char) :=
  match ciStarts jiraUrlBase.data l with
  | none => none
  | some (m, rest) =>
    let letters := rest.takeWhile Char.isAlpha
    if letters.isEmpty then none
    else
      match rest.drop letters.length with
      | '-' :: ds =>
        let digs := ds.takeWhile Char.isDigit
        if digs.isEmpty then none
        else some (m ++ letters ++ '-' :: digs, ds.drop digs.length)
      | _ => none

/-- Scanner for the global jiraLinkRegex pattern: collect every match in scan
order; on a failed attempt the scan advances one character, on a successful
match it resumes after the match. -/
def urlScan : Nat → List Char → List String
  | 0, _ => []
  | _ + 1, [] => []
  | fuel + 1, c :: cs =>
    match urlMatchAt (c :: cs) with
    | some (m, rest) => String.mk m :: urlScan fuel rest
    | none => urlScan fuel cs

/-- All matches of the jiraLinkRegex pattern in a string, in scan order. -/
def urlMatches (s : String) : List String :=
  urlScan s.data.length s.data

/-! ### The octokit singleton and pull request enrichment (fromClone.ts) -/

/-- Model of the pull request record fields used by the walk: html_url,
title, and an optional body. -/
structure PRData where
  html_url : String
  title : String
  body : Option String
deriving DecidableEq

/-- Environment of a run: the GT environment variable and the behaviour of
the hosted pull request API.  A fetch that throws or returns not-found is
modelled as the API returning none for that number (fetchPRDetails catches
the error and returns null). -/
structure Env where
  gt : Option String
  api : Nat → Option PRData

/-- Model of getOctokit from the actions toolkit: an opaque client handle
built from the token. -/
def getOctokit (token : String) : String :=
  "octokit:" ++ token

/-- Model of getOctokitSingleton (identical in fromClone.ts and tags.ts): if
a handle is cached return it, otherwise read the GT environment variable,
throw when it is absent, and otherwise build and cache the handle.  The
result is the handle together with the new cached state; a throw is an
error value. -/
def getOctokitSingleton (gt : Option String) (st : Option String) :
    Except String (String × Option String) :=
  match st with
  | some h => .ok (h, some h)
  | none =>
    match gt with
    | none => .error "GitHub token not found"
    | some token => .ok (getOctokit token, some (getOctokit token))

/-- Model of fetchPRDetails: obtain the singleton (outside any try block, so
a missing token propagates as an error), then perform the API call inside a
try block, returning null on a caught API failure.  The boolean records
whether an API network call was attempted. -/
def fetchPRDetails (env : Env) (st : Option String) (n : Nat) :
    Except String (Option PRData) × Option String × Bool :=
  match getOctokitSingleton env.gt st with
  | .error e => (.error e, st, false)
  | .ok (_, st2) => (.ok (env.api n), st2, true)

/-- Model of the try block around the fetchPRDetails call inside the commit
walk: a thrown error is caught and logged, leaving the PR data null. -/
def processPRCatch (env : Env) (st : Option String) (n : Nat) :
    Option PRData × Option String × Bool :=
  match fetchPRDetails env st n with
  | (.error _, st2, b) => (none, st2, b)
  | (.ok d, st2, b) => (d, st2, b)

/-- Accumulate Jira identifiers and Jira links from one pull request, in the
order of the source: body identifiers (uppercased), then title identifiers
(uppercased), then body links (verbatim). -/
def addJiraFromPR (ids links : List String) (d : PRData) :
    List String × List String :=
  let ids1 :=
    match d.body with
    | some b => (jiraMatches b).foldl (fun s i => setAdd s (toUpperStr i)) ids
    | none => ids
  let ids2 := (jiraMatches d.title).foldl (fun s i => setAdd s (toUpperStr i)) ids1
  let links1 :=
    match d.body with
    | some b => (urlMatches b).foldl setAdd links
    | none => links
  (ids2, links1)

/-- Mutable state threaded through the commit walk: the cached octokit
handle, the two Jira sets, and a count of API network calls attempted. -/
structure LoopState where
  handle : Option String
  jiraIds : List String
  jiraLinks : List String
  apiCalls : Nat
deriving DecidableEq

/-- Initial loop state: no cached handle, empty Jira sets, no API calls. -/
def initLoopState : LoopState :=
  { handle := none, jiraIds := [], jiraLinks := [], apiCalls := 0 }

/-- Output record of the walk for one commit: the commit, the extracted pull
request number, and the printed PR link (the html url, or the N/A marker when
no PR data was obtained). -/
structure EnrichEntry where
  commit : WalkCommit
  prNumber : Option Nat
  prLink : String
deriving DecidableEq

/-- Extraction of the pull request number of a commit message: the first
hash-digits match, converted by Number. -/
def extractPRNumber (message : String) : Option Nat :=
  (firstPRNumber message.data).map digitsToNat

/-- Per-commit enrichment attempt: no PR reference means no fetch; otherwise
the caught fetch runs with the current cached handle.  Result: the obtained
PR data, the new cached handle, and whether an API call was attempted. -/
def stepPR (env : Env) (s : LoopState) (c : WalkCommit) :
    Option PRData × Option String × Bool :=
  match extractPRNumber c.message with
  | none => (none, s.handle, false)
  | some n => processPRCatch env s.handle n

/-- Loop state after processing one commit: new handle, Jira sets extended
from the obtained PR data, and the API call counter. -/
def nextState (env : Env) (s : LoopState) (c : WalkCommit) : LoopState :=
  let step := stepPR env s c
  let sets :=
    match step.1 with
    | some d => addJiraFromPR s.jiraIds s.jiraLinks d
    | none => (s.jiraIds, s.jiraLinks)
  { handle := step.2.1, jiraIds := sets.1, jiraLinks := sets.2,
    apiCalls := s.apiCalls + (if step.2.2 then 1 else 0) }

/-- Output entry printed for one commit: the PR link is the html url of the
obtained PR data, or the N/A marker. -/
def mkEntry (env : Env) (s : LoopState) (c : WalkCommit) : EnrichEntry :=
  { commit := c, prNumber := extractPRNumber c.message,
    prLink := match (stepPR env s c).1 with | some d => d.html_url | none => "N/A" }

/-- Model of the main loop of printCommitsWithPRAndJiraLinks: for each commit
extract the first PR number from the message, attempt enrichment through the
caught fetch, print the commit with its PR link (or N/A), and stop after the
first commit whose refs contain a tag marker. -/
def enrichWalk (env : Env) : List WalkCommit → LoopState → List EnrichEntry × LoopState
  | [], s => ([], s)
  | c :: cs, s =>
    if hasTagRef c.refs then ([mkEntry env s c], nextState env s c)
    else
      let rest := enrichWalk env cs (nextState env s c)
      (mkEntry env s c :: rest.1, rest.2)

/-- Model of the dedup-and-convert step of the walk: drop the two sentinel
identifiers from the identifier set and convert the rest to browse URLs. -/
def filteredAndConvertedJiraLinks (jiraIds : List String) : List String :=
  setAddAll [] ((jiraIds.filter (fun id => ¬ (id = "OT-2" ∨ id = "OT-3"))).map
    (fun id => jiraUrlBase ++ id))

/-- Full result of printCommitsWithPRAndJiraLinks: the per-commit output, the
reported most recent tag, the comparison diff link, the two Jira sets, and
their displayed union. -/
structure WalkResult where
  entries : List EnrichEntry
  tagged : Option WalkCommit
  diffUrl : Option String
  jiraIds : List String
  jiraLinks : List String
  combined : List String
deriving DecidableEq

/-- Model of printCommitsWithPRAndJiraLinks: walk the commits with PR
enrichment until the first tagged commit, report that commit and a diff link
from it to the first commit of the stream, then display the union of the
converted identifier URLs and the raw extracted URLs. -/
def printCommitsWithPRAndJiraLinks (env : Env) (repoBaseUrl : String)
    (commits : List WalkCommit) : WalkResult :=
  let walked := enrichWalk env commits initLoopState
  let tagged := commits.find? (fun c => hasTagRef c.refs)
  let diffUrl :=
    match tagged, commits.head? with
    | some c, some f => some (repoBaseUrl ++ "/compare/" ++ c.hash ++ "..." ++ f.hash)
    | _, _ => none
  let filtered := filteredAndConvertedJiraLinks walked.2.jiraIds
  { entries := walked.1, tagged := tagged, diffUrl := diffUrl,
    jiraIds := walked.2.jiraIds, jiraLinks := walked.2.jiraLinks,
    combined := setAddAll filtered walked.2.jiraLinks }

/-! ### Tag and commit correlation (fetchRecentTagCommits) -/

/-- Model of the TagCommitDetails interface.  The interface declares all
fields as strings, but the destructuring assignment in fetchRecentTagCommits
can leave trailing fields undefined, which is modelled by Option. -/
structure TagCommitDetails where
  sha : String
  date : Option String
  tags : List String
  message : Option String
  authorName : Option String
  authorEmail : Option String
deriving DecidableEq

/-- Model of the commit-details parse in fetchRecentTagCommits: trim the raw
git show output, split on the triple-bar delimiter, discard empty components,
and assign the remaining components positionally to date, author name, author
email, and message (component zero is the sha and is not used). -/
def parseCommitDetails (raw : String) :
    Option String × Option String × Option String × Option String :=
  let parts := ((splitTripleBar (charTrim raw.data)).map String.mk).filter (fun p => p ≠ "")
  (parts.get? 1, parts.get? 2, parts.get? 3, parts.get? 4)

/-- Raw line produced by git show with the pretty format of
fetchRecentTagCommits: hash, author date, author name, author email and
subject joined by the triple-bar delimiter. -/
def rawShowLine (sha date authorName authorEmail subject : String) : String :=
  sha ++ "|||" ++ date ++ "|||" ++ authorName ++ "|||" ++ authorEmail ++ "|||" ++ subject

/-- Build the map entry created for the first tag observed at a sha, given
the raw git show output for that sha and the accumulated tag list. -/
def mkTagCommit (showOut : String) (sha : String) (tags : List String) :
    TagCommitDetails :=
  let p := parseCommitDetails showOut
  { sha := sha, date := p.1, tags := tags, message := p.2.2.2,
    authorName := p.2.1, authorEmail := p.2.2.1 }

/-- Append a tag name to the tags list of the existing entry for a sha,
modelling commitsMap.get(sha).tags.push(tagName). -/
def pushTag (sha tag : String) : List TagCommitDetails → List TagCommitDetails
  | [] => []
  | e :: es =>
    if e.sha = sha then { e with tags := e.tags ++ [tag] } :: es
    else e :: pushTag sha tag es

/-- Loop body of fetchRecentTagCommits over the tag names, carrying the map
as an insertion-ordered list keyed by sha: revparse resolves a tag to its
commit sha; the first tag for a sha creates the entry, later tags for the
same sha are appended to its tags list. -/
def fetchTagLoop (revparse showCommit : String → String) :
    List String → List TagCommitDetails → List TagCommitDetails
  | [], acc => acc
  | t :: ts, acc =>
    let sha := revparse t
    if acc.any (fun e => e.sha = sha) then
      fetchTagLoop revparse showCommit ts (pushTag sha t acc)
    else
      fetchTagLoop revparse showCommit ts (acc ++ [mkTagCommit (showCommit sha) sha [t]])

/-- Model of fetchRecentTagCommits: take the first maxTags tags of the
version-sorted tag listing and correlate them into one entry per commit sha,
in insertion order (Map preserves insertion order and Array.from returns the
values in that order). -/
def fetchRecentTagCommits (revparse showCommit : String → String)
    (tags : List String) (maxTags : Nat) : List TagCommitDetails :=
  fetchTagLoop revparse showCommit (tags.take maxTags) []

/-! ### The categorizer of fromClone.ts (printLatestTagsByCategory) -/

/-- Descending date order used by every sort in the source: the comparator
subtracts parsed millisecond timestamps; the parse is abstracted as a
function to integers. -/
def dateDesc (dm : Option String → Int) (a b : TagCommitDetails) : Prop :=
  dm b.date ≤ dm a.date

instance (dm : Option String → Int) : DecidableRel (dateDesc dm) := by
  intro a b
  unfold dateDesc
  infer_instance

/-- Insertion step of the fromClone categorizer for one category list: when
the commit sha is already present the map is left unchanged; otherwise the
commit is appended, the list is sorted by date descending (Array sort is
stable, as is insertion sort), and only the three most recent entries are
kept. -/
def catInsert (K : Nat) (dm : Option String → Int)
    (L : List TagCommitDetails) (x : TagCommitDetails) : List TagCommitDetails :=
  if L.any (fun c => c.sha = x.sha) then L
  else (List.insertionSort (dateDesc dm) (L ++ [x])).take K

/-- Pointwise map update modelling mostRecentByCategory.set. -/
def updateCat (m : String → List TagCommitDetails) (cat : String)
    (L : List TagCommitDetails) : String → List TagCommitDetails :=
  fun c => if c = cat then L else m c

/-- Model of printLatestTagsByCategory from fromClone.ts: for every commit
and every tag of the commit, apply the category rule (tag.match(tagRegex),
abstracted as a function returning the matched key or none) and insert the
commit into the list of the matched category, keeping the three most recent
unique commits per category.  The category map is modelled as a total
function that is the empty list outside the touched categories. -/
def printLatestTagsByCategory (dm : Option String → Int)
    (tagMatch : String → Option String) (tagCommits : List TagCommitDetails) :
    String → List TagCommitDetails :=
  tagCommits.foldl
    (fun m x =>
      x.tags.foldl
        (fun m2 tag =>
          match tagMatch tag with
          | none => m2
          | some cat => updateCat m2 cat (catInsert 3 dm (m2 cat) x))
        m)
    (fun _ => [])

/-! ### The categorizer of the unnamed variant (printLatestTagsByCategory, K = 5) -/

/-- Model of the CommitDetails interface of the unnamed variant. -/
structure CommitDetails where
  sha : String
  date : String
  tags : List String
deriving DecidableEq

/-- Descending date order for the unnamed variant, whose dates are plain
strings. -/
def dateDesc0 (dm : String → Int) (a b : CommitDetails) : Prop :=
  dm b.date ≤ dm a.date

instance (dm : String → Int) : DecidableRel (dateDesc0 dm) := by
  intro a b
  unfold dateDesc0
  infer_instance

/-- Model of printLatestTagsByCategory from the unnamed variant: first sort
all commits by date descending, then for every commit and matching tag append
the commit to its category list when the sha is not yet present and the list
still has fewer than five entries. -/
def printLatestTagsByCategory0 (dm : String → Int)
    (tagMatch : String → Option String) (commits : List CommitDetails) :
    String → List CommitDetails :=
  let sorted := List.insertionSort (dateDesc0 dm) commits
  sorted.foldl
    (fun m x =>
      x.tags.foldl
        (fun m2 tag =>
          match tagMatch tag with
          | none => m2
          | some cat =>
            if (m2 cat).any (fun sc => sc.sha = x.sha) ∨ 5 ≤ (m2 cat).length then m2
            else fun c => if c = cat then (m2 cat) ++ [x] else m2 c)
        m)
    (fun _ => [])

/-- A commit is a candidate for a category when one of its tags matches to
that category key. -/
abbrev matchesCat (tagMatch : String → Option String) (c : String)
    (x : TagCommitDetails) : Prop :=
  ∃ t ∈ x.tags, tagMatch t = some c

/-- Sha injectivity of a commit collection: the sha determines the commit.
The correlation step guarantees this for its output (one entry per sha). -/
abbrev ShaInj (l : List TagCommitDetails) : Prop :=
  ∀ a ∈ l, ∀ b ∈ l, a.sha = b.sha → a = b

/-- Invariant of the fromClone categorizer for one category: the retained
list is date-sorted, holds at most K entries with pairwise distinct shas, all
of them processed matching candidates; and every processed matching
candidate whose sha is not retained was displaced from a full list by
entries at least as recent. -/
def CatInv (dm : Option String → Int) (tagMatch : String → Option String) (c : String)
    (K : Nat) (comms done L : List TagCommitDetails) : Prop :=
  L.Sorted (dateDesc dm) ∧
  L.length ≤ K ∧
  (L.map (fun e => e.sha)).Nodup ∧
  (∀ e ∈ L, e ∈ comms ∧ matchesCat tagMatch c e) ∧
  (∀ y ∈ done, y ∈ comms) ∧
  (∀ y ∈ done, matchesCat tagMatch c y → y.sha ∉ L.map (fun e => e.sha) →
    K ≤ L.length ∧ ∀ e ∈ L, dm y.date ≤ dm e.date)

/-- Candidate predicate for the unnamed-variant categorizer. -/
abbrev matchesCat0 (tagMatch : String → Option String) (c : String)
    (x : CommitDetails) : Prop :=
  ∃ t ∈ x.tags, tagMatch t = some c

/-- Sha injectivity for the unnamed-variant commit records. -/
abbrev ShaInj0 (l : List CommitDetails) : Prop :=
  ∀ a ∈ l, ∀ b ∈ l, a.sha = b.sha → a = b

/-- Invariant of the unnamed-variant categorizer for one category: at most
five entries with pairwise distinct shas, all processed matching candidates;
and every processed matching candidate whose sha is not retained arrived
when the list was already full of entries at least as recent. -/
def CatInv0 (dm : String → Int) (tagMatch : String → Option String) (c : String)
    (comms done L : List CommitDetails) : Prop :=
  L.length ≤ 5 ∧
  (L.map (fun e => e.sha)).Nodup ∧
  (∀ e ∈ L, e ∈ comms ∧ matchesCat0 tagMatch c e) ∧
  (∀ y ∈ done, y ∈ comms) ∧
  (∀ y ∈ done, matchesCat0 tagMatch c y → y.sha ∉ L.map (fun e => e.sha) →
    5 ≤ L.length ∧ ∀ e ∈ L, dm y.date ≤ dm e.date)

/-! ### Date parsing

The sorts in the source compare `new Date(s).getTime()` values.  For the
claims about concrete dates this is modelled by an executable parser for the
strict ISO-8601 date-time strings with an explicit UTC offset that git and
the hosted API emit and that the fallback sentinel uses. -/

/-- Civil date to days since the Unix epoch (the standard days-from-civil
computation).  Only dates at or after the year zero are used by the claims,
where integer division is exact enough; the branch keeps the function total
for earlier years. -/
def daysFromCivil (y : Int) (m d : Nat) : Int :=
  let yy : Int := if m ≤ 2 then y - 1 else y
  let era : Int := (if 0 ≤ yy then yy else yy - 399) / 400
  let yoe : Int := yy - era * 400
  let mp : Int := ((m : Int) + 9) % 12
  let doy : Int := (153 * mp + 2) / 5 + (d : Int) - 1
  let doe : Int := yoe * 365 + yoe / 4 - yoe / 100 + doy
  era * 146097 + doe - 719468

/-- Parse an optional fractional-seconds part of exactly three digits,
returning the milliseconds and the remaining characters. -/
def parseFrac : List Char → Nat × List Char
  | '.' :: a :: b :: c :: rest =>
    if a.isDigit ∧ b.isDigit ∧ c.isDigit then (digitsToNat [a, b, c], rest)
    else (0, '.' :: a :: b :: c :: rest)
  | l => (0, l)

/-- Parse a UTC-offset suffix: Z, or a sign followed by hours, a colon and
minutes.  Returns the offset in minutes east of UTC. -/
def parseZone : List Char → Option Int
  | ['Z'] => some 0
  | [sgn, h1, h2, ':', m1, m2] =>
    if (sgn = '+' ∨ sgn = '-') ∧ h1.isDigit ∧ h2.isDigit ∧ m1.isDigit ∧ m2.isDigit then
      let v : Int := (digitsToNat [h1, h2] * 60 + digitsToNat [m1, m2] : Nat)
      some (if sgn = '-' then -v else v)
    else none
  | _ => none

/-- Parse a strict ISO-8601 date-time string with explicit offset into
milliseconds since the Unix epoch, the value new Date(s).getTime() yields on
such strings. -/
def isoToMs (s : String) : Option Int :=
  match s.data with
  | y1 :: y2 :: y3 :: y4 :: '-' :: mo1 :: mo2 :: '-' :: d1 :: d2 :: 'T' ::
      h1 :: h2 :: ':' :: mi1 :: mi2 :: ':' :: s1 :: s2 :: rest =>
    if y1.isDigit ∧ y2.isDigit ∧ y3.isDigit ∧ y4.isDigit ∧ mo1.isDigit ∧ mo2.isDigit ∧
        d1.isDigit ∧ d2.isDigit ∧ h1.isDigit ∧ h2.isDigit ∧ mi1.isDigit ∧ mi2.isDigit ∧
        s1.isDigit ∧ s2.isDigit then
      let frac := parseFrac rest
      match parseZone frac.2 with
      | none => none
      | some off =>
        let days := daysFromCivil (digitsToNat [y1, y2, y3, y4] : Nat)
          (digitsToNat [mo1, mo2]) (digitsToNat [d1, d2])
        let secs : Int := days * 86400 +
          (digitsToNat [h1, h2] * 3600 + digitsToNat [mi1, mi2] * 60 + digitsToNat [s1, s2] : Nat)
        some (secs * 1000 + (frac.1 : Int) - off * 60000)
    else none
  | _ => none

/-- Millisecond value used by the comparators of tags.ts on the concrete
claim inputs; unparseable strings are given a fixed junk value (the engine
would produce NaN there, which the claims never rely on). -/
def dateMsOf (s : String) : Int :=
  (isoToMs s).getD 0

/-! ### tags.ts: tag details, the date sentinel, and sha groups -/

/-- Model of the fields of the hosted-API tag record used by tags.ts. -/
structure ApiTag where
  name : String
  sha : String
deriving DecidableEq

/-- Model of the TagDetails interface of tags.ts. -/
structure TagDetails where
  name : String
  date : String
  sha : String
deriving DecidableEq

/-- Fixed fallback date substituted in fetchTagDetails when the commit has no
author date. -/
def sentinelDate : String :=
  "2007-10-29T02:42:39.000-07:00"

/-- Model of the date expression of fetchTagDetails: the author date when it
is present and truthy (a present empty string is falsy in JavaScript),
otherwise the fixed sentinel. -/
def resolveDate (authorDate : Option String) : String :=
  match authorDate with
  | none => sentinelDate
  | some d => if d = "" then sentinelDate else d

/-- Model of fetchTagDetails on a successful commit lookup: the tag name, the
resolved date, and the target sha.  The commit lookup result is abstracted to
its optional author date. -/
def fetchTagDetails (t : ApiTag) (authorDate : Option String) : TagDetails :=
  { name := t.name, date := resolveDate authorDate, sha := t.sha }

/-- Model of the tagsBySha grouping: an insertion-ordered association list
from sha to the tag details pushed for that sha, in input order. -/
def tagsBySha (l : List TagDetails) : List (String × List TagDetails) :=
  l.foldl
    (fun acc t =>
      if acc.any (fun p => p.1 = t.sha) then
        acc.map (fun p => if p.1 = t.sha then (p.1, p.2 ++ [t]) else p)
      else acc ++ [(t.sha, [t])])
    []

/-- Model of one sha group of tags.ts: the sha, its tags, and the date of the
first tag of the group. -/
structure ShaGroup where
  sha : String
  tags : List TagDetails
  date : String
deriving DecidableEq

/-- Descending date order on sha groups, with the concrete millisecond
parse used by the tags.ts comparator. -/
def groupDateDesc (a b : ShaGroup) : Prop :=
  dateMsOf b.date ≤ dateMsOf a.date

instance : DecidableRel groupDateDesc := by
  intro a b
  unfold groupDateDesc
  infer_instance

/-- Model of the shaGroups construction of tags.ts: one group per sha in
first-occurrence order, dated by the first tag of the group. -/
def shaGroups (l : List TagDetails) : List ShaGroup :=
  (tagsBySha l).map (fun p => { sha := p.1, tags := p.2, date := (p.2.headD ⟨"", "", ""⟩).date })

/-- Model of the sort of shaGroups by date in descending order (newest
first). -/
def shaGroupsSorted (l : List TagDetails) : List ShaGroup :=
  List.insertionSort groupDateDesc (shaGroups l)

/-- Model of getAllTags of tags.ts up to its first API page request: the
octokit singleton is obtained before the first listTags call, so a missing
token aborts the function before any page is fetched; on success the
paginated tag list is returned (pagination is abstracted as the full list the
API would deliver). -/
def getAllTagsModel (gt : Option String) (pages : List ApiTag) :
    Except String (List ApiTag) :=
  match getOctokitSingleton gt none with
  | .error e => .error e
  | .ok _ => .ok pages

/-! ### printLast5TagsWithDetails (fromClone.ts) -/

/-- Structured content of the for-each-ref metadata line for one tag. -/
structure TagMeta where
  objecttype : String
  shortName : String
  taggerName : String
  taggerEmail : String
  taggerDate : String
deriving DecidableEq

/-- The for-each-ref output line for a tag, with the format string used by
printLast5TagsWithDetails: objecttype, short refname, tagger name, tagger
email and tagger date joined by single bars. -/
def forEachRefLine (m : TagMeta) : String :=
  m.objecttype ++ "|" ++ m.shortName ++ "|" ++ m.taggerName ++ "|" ++
    m.taggerEmail ++ "|" ++ m.taggerDate

/-- Report entry printed for one tag: either the annotated-tag details
(tagger name, email, trimmed date, trimmed message subject) or the
lightweight-tag warning. -/
inductive TagReport where
  | annotatedTag (name taggerName taggerEmail taggerDate message : String)
  | lightweightWarning (name : String)
deriving DecidableEq

/-- Name of the tag a report entry is about. -/
def TagReport.tagName : TagReport → String
  | .annotatedTag n _ _ _ _ => n
  | .lightweightWarning n => n

/-- Report entry for one tag: when the for-each-ref line starts with the
characters of the tag object type, split it on bars and print the tagger
fields (the date trimmed at the end) and the trimmed message subject;
otherwise print the lightweight warning. -/
def tagReportFor (refLine subjectOf : String → String) (tagName : String) : TagReport :=
  let tagDetails := refLine tagName
  if ("tag".data).isPrefixOf tagDetails.data then
    let parts := (splitBar tagDetails.data).map String.mk
    TagReport.annotatedTag tagName ((parts.get? 2).getD "") ((parts.get? 3).getD "")
      (trimEnd ((parts.get? 4).getD "")) (String.mk (charTrim (subjectOf tagName).data))
  else TagReport.lightweightWarning tagName

/-- Model of printLast5TagsWithDetails: take the first five tags of the
version-sorted tag listing and print the report entry of each. -/
def printLast5TagsWithDetails (allTags : List String)
    (refLine subjectOf : String → String) : List TagReport :=
  (allTags.take 5).map (tagReportFor refLine subjectOf)

/-! ### Demonstration data used by witnesses and counterexamples -/

/-- Demonstration commits for the walk claims: two untagged commits followed
by a tagged release commit and one older commit behind the tag. -/
def demoC0 : WalkCommit :=
  { hash := "aaa0", date := "2024-01-04T00:00:00Z", refs := "HEAD, origin/chore_release",
    message := "third commit (#12)" }

/-- Second demonstration commit, untagged. -/
def demoC1 : WalkCommit :=
  { hash := "bbb1", date := "2024-01-03T00:00:00Z", refs := "", message := "second commit" }

/-- Tagged demonstration commit. -/
def demoC2 : WalkCommit :=
  { hash := "ccc2", date := "2024-01-02T00:00:00Z", refs := "tag: v1.2.0",
    message := "release commit (#10)" }

/-- Commit behind the tag that the walk must never examine. -/
def demoC3 : WalkCommit :=
  { hash := "ddd3", date := "2024-01-01T00:00:00Z", refs := "", message := "old commit (#9)" }

/-- Demonstration environment with a token and an API that knows no PR. -/
def demoEnv : Env :=
  { gt := some "token", api := fun _ => none }

/-- Commit whose message references a pull request the API cannot deliver. -/
def demoC9999 : WalkCommit :=
  { hash := "eee4", date := "2024-01-05T00:00:00Z", refs := "",
    message := "fixes the flaky retry (#9999)" }

/-- Environment with no GT token whose API would answer every request: if a
call were ever issued, a PR link would be printed. -/
def noTokenEnv : Env :=
  { gt := none,
    api := fun _ => some { html_url := "https://github.com/x/pull/1", title := "t", body := none } }

/-- Tag whose commit lookup yields no author date, so the sentinel is
substituted. -/
def demoTagA : ApiTag :=
  { name := "v9.9.9", sha := "shaA" }

/-- Tag whose commit predates the sentinel. -/
def demoTagB : ApiTag :=
  { name := "v0.0.1", sha := "shaB" }

/-- Tag details of the two demonstration tags: the first carries the
sentinel date, the second an authoritative date from 2005. -/
def demoTagDetails : List TagDetails :=
  [fetchTagDetails demoTagA none,
    fetchTagDetails demoTagB (some "2005-06-15T12:00:00.000+00:00")]

/-- Version-name-descending tag listing used in the last-5 report
demonstration: six tags whose version order disagrees with creation order. -/
def demoVersionSortedTags : List String :=
  ["v6.0.0", "v5.0.0", "v4.0.0", "v3.0.0", "v2.0.0", "v1.0.1"]

/-- Creation instants of the demonstration tags: the backport tag v1.0.1 is
the most recently created one. -/
def demoCreated (t : String) : Nat :=
  if t = "v1.0.1" then 100
  else if t = "v6.0.0" then 60
  else if t = "v5.0.0" then 50
  else if t = "v4.0.0" then 40
  else if t = "v3.0.0" then 30
  else 20

/-- Metadata lines of the demonstration tags: every one is annotated. -/
def demoRefLine (t : String) : String :=
  "tag|" ++ t ++ "|Ann Dev|a@x.io|2024-01-01T00:00:00+00:00"

/-- Message subjects of the demonstration tags. -/
def demoSubject (_ : String) : String :=
  "release notes"

/-- Demonstration tag commits for the categorizer: four version commits and
one documentation commit, with distinct shas. -/
def demoTagCommits : List TagCommitDetails :=
  [{ sha := "s1", date := some "d4", tags := ["v7.0.0"], message := none,
      authorName := none, authorEmail := none },
    { sha := "s2", date := some "d3", tags := ["v7.0.1", "docs-1"], message := none,
      authorName := none, authorEmail := none },
    { sha := "s3", date := some "d2", tags := ["v7.0.2"], message := none,
      authorName := none, authorEmail := none },
    { sha := "s4", date := some "d1", tags := ["v7.0.3"], message := none,
      authorName := none, authorEmail := none }]

/-- Demonstration commits for the unnamed-variant categorizer. -/
def demoCommits0 : List CommitDetails :=
  [{ sha := "t1", date := "d1", tags := ["v1.0.0"] },
    { sha := "t2", date := "d2", tags := ["v1.0.1"] },
    { sha := "t3", date := "d3", tags := [] }]

/-- Demonstration date parse: the length of the date string. -/
def demoDm (od : Option String) : Int :=
  (od.getD "").length

/-- Demonstration date parse for the unnamed variant. -/
def demoDm0 (s : String) : Int :=
  s.length

/-- Demonstration category rule: tags starting with the letter v form the v
category. -/
def demoTagMatch (t : String) : Option String :=
  if ("v".data).isPrefixOf t.data then some "v" else none

/-! ### Lemmas about the commit walk -/

/-- Walking from a commit whose refs carry a tag marker stops at that commit:
the result does not depend on the remaining stream. -/
theorem enrichWalk_stop (env : Env) (c : WalkCommit) (rest rest2 : List WalkCommit)
    (s : LoopState) (hc : hasTagRef c.refs = true) :
    enrichWalk env (c :: rest) s = enrichWalk env (c :: rest2) s := by
  simp only [enrichWalk, hc, if_true]

/-- Walking a stream made of untagged commits followed by a tagged commit
processes exactly the untagged prefix and the tagged commit, for any state
and any suffix. -/
theorem enrichWalk_until (env : Env) :
    ∀ (pre : List WalkCommit), (∀ x ∈ pre, hasTagRef x.refs = false) →
    ∀ (c : WalkCommit) (rest : List WalkCommit) (s : LoopState),
      hasTagRef c.refs = true →
      (enrichWalk env (pre ++ c :: rest) s).1.map (fun e => e.commit) = pre ++ [c] ∧
      enrichWalk env (pre ++ c :: rest) s = enrichWalk env (pre ++ [c]) s := by
  intro pre
  induction pre with
  | nil =>
    intro _ c rest s hc
    constructor
    · simp [enrichWalk, hc, mkEntry]
    · simpa using enrichWalk_stop env c rest [] s hc
  | cons x pre ih =>
    intro hpre c rest s hc
    have hx : hasTagRef x.refs = false := hpre x (by simp)
    have ih2 := ih (fun y hy => hpre y (by simp [hy])) c rest (nextState env s x) hc
    constructor
    · simp only [List.cons_append, enrichWalk, hx, Bool.false_eq_true, if_false, List.map_cons,
        List.append_eq, ih2.1]
      simp [mkEntry]
    · simp only [List.cons_append, enrichWalk, hx, Bool.false_eq_true, if_false,
        List.append_eq, ih2.2]

/-- Finding the first tagged commit in a stream whose prefix is untagged
yields the commit after the prefix. -/
theorem find_tagged (pre : List WalkCommit) (c : WalkCommit) (rest : List WalkCommit)
    (hpre : ∀ x ∈ pre, hasTagRef x.refs = false) (hc : hasTagRef c.refs = true) :
    (pre ++ c :: rest).find? (fun y => hasTagRef y.refs) = some c := by
  induction pre with
  | nil => simp [List.find?, hc]
  | cons x pre ih =>
    have hx : hasTagRef x.refs = false := hpre x (by simp)
    simp only [List.cons_append, List.find?, hx]
    exact ih (fun y hy => hpre y (by simp [hy]))

/-- The tag-search walk of the unnamed variant returns the hash of the first
tagged commit. -/
theorem untilTagFound_eq (pre : List WalkCommit) (c : WalkCommit) (rest : List WalkCommit)
    (hpre : ∀ x ∈ pre, hasTagRef x.refs = false) (hc : hasTagRef c.refs = true) :
    printCommitsUntilTagFound (pre ++ c :: rest) = some c.hash := by
  induction pre with
  | nil => simp [printCommitsUntilTagFound, hc]
  | cons x pre ih =>
    have hx : hasTagRef x.refs = false := hpre x (by simp)
    simp only [List.cons_append, printCommitsUntilTagFound, hx, Bool.false_eq_true, if_false]
    exact ih (fun y hy => hpre y (by simp [hy]))

/-- Claim C3: for a commit stream ordered newest-first whose prefix carries
no tag marker and whose next commit does, the walk reports exactly the
untagged prefix followed by the tagged commit, reports that commit as the
most recent tag, emits a comparison diff link from the tagged commit to the
first commit of the stream, never examines any commit after the tagged one
(the whole result equals the result on the truncated stream), and the walk of
the unnamed variant returns the tagged commit hash. -/
theorem claim_C3_traversal_termination (env : Env) (base : String)
    (pre : List WalkCommit) (c : WalkCommit) (rest : List WalkCommit)
    (hpre : ∀ x ∈ pre, hasTagRef x.refs = false) (hc : hasTagRef c.refs = true) :
    (printCommitsWithPRAndJiraLinks env base (pre ++ c :: rest)).entries.map
        (fun e => e.commit) = pre ++ [c] ∧
    (printCommitsWithPRAndJiraLinks env base (pre ++ c :: rest)).tagged = some c ∧
    (printCommitsWithPRAndJiraLinks env base (pre ++ c :: rest)).diffUrl =
      some (base ++ "/compare/" ++ c.hash ++ "..." ++ ((pre ++ c :: rest).headD c).hash) ∧
    printCommitsWithPRAndJiraLinks env base (pre ++ c :: rest) =
      printCommitsWithPRAndJiraLinks env base (pre ++ [c]) ∧
    printCommitsUntilTagFound (pre ++ c :: rest) = some c.hash := by
  have hwalk := enrichWalk_until env pre hpre c rest initLoopState hc
  have hwalk1 := enrichWalk_until env pre hpre c [] initLoopState hc
  have hfind := find_tagged pre c rest hpre hc
  have hfind1 := find_tagged pre c [] hpre hc
  have hhead : (pre ++ c :: rest).head? = (pre ++ [c]).head? := by
    cases pre <;> simp
  have hheadD : (pre ++ c :: rest).headD c = (pre ++ [c]).headD c := by
    cases pre <;> simp
  refine ⟨?_, ?_, ?_, ?_, untilTagFound_eq pre c rest hpre hc⟩
  · simpa [printCommitsWithPRAndJiraLinks] using hwalk.1
  · simp [printCommitsWithPRAndJiraLinks, hfind]
  · simp only [printCommitsWithPRAndJiraLinks, hfind]
    cases pre with
    | nil => simp
    | cons x l => simp
  · simp only [printCommitsWithPRAndJiraLinks, hfind, hfind1, hhead, hwalk.2]

/-! ### Lemmas about the first PR number extraction -/

/-- The scanner returns none exactly when the pattern matches at no position
of the text. -/
theorem firstPRNumber_eq_none_iff (l : List Char) :
    firstPRNumber l = none ↔ ∀ j, prMatchAt (l.drop j) = none := by
  induction l with
  | nil => simp [firstPRNumber, prMatchAt]
  | cons c cs ih =>
    have hshift : (∀ j, prMatchAt ((c :: cs).drop j) = none) ↔
        prMatchAt (c :: cs) = none ∧ ∀ j, prMatchAt (cs.drop j) = none := by
      constructor
      · intro h
        exact ⟨h 0, fun j => by simpa using h (j + 1)⟩
      · intro h j
        cases j with
        | zero => simpa using h.1
        | succ j => simpa using h.2 j
    rw [hshift]
    by_cases hc : c = '#'
    · subst hc
      by_cases hd : (cs.takeWhile Char.isDigit).isEmpty
      · simp only [firstPRNumber, if_pos rfl, hd, if_true, ih]
        simp [prMatchAt, hd]
      · simp only [firstPRNumber, if_pos rfl]
        simp [prMatchAt, hd]
    · simp only [firstPRNumber, if_neg hc, ih]
      simp [prMatchAt, hc]

/-- The scanner returns a digit run exactly when the pattern matches that run
at some position before which it matches nowhere: the first match wins. -/
theorem firstPRNumber_eq_some_iff (l : List Char) (digs : List Char) :
    firstPRNumber l = some digs ↔
      ∃ j, prMatchAt (l.drop j) = some digs ∧ ∀ i, i < j → prMatchAt (l.drop i) = none := by
  induction l with
  | nil => simp [firstPRNumber, prMatchAt]
  | cons c cs ih =>
    have hshift : (∃ j, prMatchAt ((c :: cs).drop j) = some digs ∧
          ∀ i, i < j → prMatchAt ((c :: cs).drop i) = none) ↔
        (prMatchAt (c :: cs) = some digs ∨
          (prMatchAt (c :: cs) = none ∧ ∃ j, prMatchAt (cs.drop j) = some digs ∧
            ∀ i, i < j → prMatchAt (cs.drop i) = none)) := by
      constructor
      · rintro ⟨j, hj, hlt⟩
        cases j with
        | zero => exact Or.inl (by simpa using hj)
        | succ j =>
          refine Or.inr ⟨by simpa using hlt 0 (Nat.succ_pos j), j, by simpa using hj, ?_⟩
          intro i hi
          simpa using hlt (i + 1) (Nat.succ_lt_succ hi)
      · rintro (h | ⟨h0, j, hj, hlt⟩)
        · exact ⟨0, by simpa using h, fun i hi => absurd hi (Nat.not_lt_zero i)⟩
        · refine ⟨j + 1, by simpa using hj, ?_⟩
          intro i hi
          cases i with
          | zero => simpa using h0
          | succ i => simpa using hlt i (Nat.lt_of_succ_lt_succ hi)
    rw [hshift]
    by_cases hc : c = '#'
    · subst hc
      by_cases hd : (cs.takeWhile Char.isDigit).isEmpty
      · simp only [firstPRNumber, if_pos rfl, hd, if_true, ih]
        simp [prMatchAt, hd]
      · simp only [firstPRNumber, if_pos rfl]
        simp [prMatchAt, hd]
    · simp only [firstPRNumber, if_neg hc, ih]
      simp [prMatchAt, hc]

/-- Every entry produced by the walk carries the PR number extracted from its
own commit message. -/
theorem enrichWalk_prNumber (env : Env) :
    ∀ (cs : List WalkCommit) (s : LoopState), ∀ e ∈ (enrichWalk env cs s).1,
      e.prNumber = extractPRNumber e.commit.message := by
  intro cs
  induction cs with
  | nil => intro s e he; simp [enrichWalk] at he
  | cons c cs ih =>
    intro s e he
    by_cases hc : hasTagRef c.refs
    · simp [enrichWalk, hc] at he
      subst he
      rfl
    · simp only [enrichWalk, hc, Bool.false_eq_true, if_false, List.mem_cons] at he
      rcases he with he | he
      · subst he; rfl
      · exact ih _ e he

/-- Claim C9: the pull request number used for enrichment is extracted from
the first (leftmost) hash-digits match of the commit message, and a message
with no such substring yields no pull request.  The first two parts
characterize the scanner as the leftmost match of the position-wise pattern;
the last parts tie the extraction to the walk output. -/
theorem claim_C9_first_match_wins (msg : String) :
    (extractPRNumber msg = none ↔ ∀ j, prMatchAt (msg.data.drop j) = none) ∧
    (∀ digs, firstPRNumber msg.data = some digs ↔
      ∃ j, prMatchAt (msg.data.drop j) = some digs ∧
        ∀ i, i < j → prMatchAt (msg.data.drop i) = none) ∧
    (∀ digs, firstPRNumber msg.data = some digs →
      extractPRNumber msg = some (digitsToNat digs)) ∧
    (∀ (env : Env) (cs : List WalkCommit) (s : LoopState), ∀ e ∈ (enrichWalk env cs s).1,
      e.prNumber = extractPRNumber e.commit.message) := by
  refine ⟨?_, fun digs => firstPRNumber_eq_some_iff msg.data digs, ?_, enrichWalk_prNumber⟩
  · rw [← firstPRNumber_eq_none_iff]
    simp [extractPRNumber]
  · intro digs h
    simp [extractPRNumber, h]

/-! ### Lemmas about failure tolerance in the walk -/

/-- When the API yields nothing for a number (a throwing or not-found fetch
is caught inside fetchPRDetails and returns null), the per-commit step
obtains no PR data, whatever the token and cached-handle situation is. -/
theorem stepPR_api_none (env : Env) (s : LoopState) (c : WalkCommit) (n : Nat)
    (hpn : extractPRNumber c.message = some n) (hapi : env.api n = none) :
    (stepPR env s c).1 = none := by
  unfold stepPR processPRCatch fetchPRDetails
  rw [hpn]
  cases h : getOctokitSingleton env.gt s.handle with
  | error e => rfl
  | ok p => simp [hapi]

/-- The sequence of commits the walk processes does not depend on the
environment or on the loop state: enrichment failures never remove or add
commits to the walk. -/
theorem enrichWalk_shape (env env2 : Env) :
    ∀ (cs : List WalkCommit) (s s2 : LoopState),
      (enrichWalk env cs s).1.map (fun e => e.commit) =
        (enrichWalk env2 cs s2).1.map (fun e => e.commit) := by
  intro cs
  induction cs with
  | nil => intro s s2; rfl
  | cons c cs ih =>
    intro s s2
    by_cases hc : hasTagRef c.refs
    · simp [enrichWalk, hc, mkEntry]
    · simp only [enrichWalk, hc, Bool.false_eq_true, if_false, List.map_cons]
      rw [ih (nextState env s c) (nextState env2 s2 c)]
      simp [mkEntry]

/-- Every walk entry whose PR fetch found nothing shows the N/A marker. -/
theorem enrichWalk_na (env : Env) :
    ∀ (cs : List WalkCommit) (s : LoopState), ∀ e ∈ (enrichWalk env cs s).1,
      ∀ n, e.prNumber = some n → env.api n = none → e.prLink = "N/A" := by
  intro cs
  induction cs with
  | nil => intro s e he; simp [enrichWalk] at he
  | cons c cs ih =>
    intro s e he n hpn hapi
    have hentry : ∀ (s3 : LoopState), e = mkEntry env s3 c → e.prLink = "N/A" := by
      intro s3 hme
      have hn : extractPRNumber c.message = some n := by
        rw [hme] at hpn
        simpa [mkEntry] using hpn
      rw [hme]
      simp [mkEntry, stepPR_api_none env s3 c n hn hapi]
    by_cases hc : hasTagRef c.refs
    · simp [enrichWalk, hc] at he
      exact hentry s he
    · simp only [enrichWalk, hc, Bool.false_eq_true, if_false, List.mem_cons] at he
      rcases he with he | he
      · exact hentry s he
      · exact ih _ e he n hpn hapi

/-- Claim C5: a failing PR fetch for one commit is caught, that commit is
printed with the N/A link, and the walk still processes exactly the same
commits as under any other environment: one failing remote fetch never
aborts the correlation of any other commit. -/
theorem claim_C5_degraded_run (env env2 : Env) (s s2 : LoopState) (cs : List WalkCommit) :
    (enrichWalk env cs s).1.map (fun e => e.commit) =
      (enrichWalk env2 cs s2).1.map (fun e => e.commit) ∧
    (∀ e ∈ (enrichWalk env cs s).1, ∀ n, e.prNumber = some n → env.api n = none →
      e.prLink = "N/A") :=
  ⟨enrichWalk_shape env env2 cs s s2, enrichWalk_na env cs s⟩

/-- Witness for claim C3 at the concrete stream of the claim: c0 and c1
untagged, c2 tagged v1.2.0, one commit behind the tag. -/
theorem claim_C3_witness :
    ((∀ x ∈ [demoC0, demoC1], hasTagRef x.refs = false) ∧ hasTagRef demoC2.refs = true) ∧
    ((printCommitsWithPRAndJiraLinks demoEnv "u" ([demoC0, demoC1] ++ demoC2 :: [demoC3])).entries.map
        (fun e => e.commit) = [demoC0, demoC1] ++ [demoC2] ∧
      (printCommitsWithPRAndJiraLinks demoEnv "u" ([demoC0, demoC1] ++ demoC2 :: [demoC3])).tagged =
        some demoC2 ∧
      (printCommitsWithPRAndJiraLinks demoEnv "u" ([demoC0, demoC1] ++ demoC2 :: [demoC3])).diffUrl =
        some ("u" ++ "/compare/" ++ demoC2.hash ++ "..." ++
          (([demoC0, demoC1] ++ demoC2 :: [demoC3]).headD demoC2).hash) ∧
      printCommitsWithPRAndJiraLinks demoEnv "u" ([demoC0, demoC1] ++ demoC2 :: [demoC3]) =
        printCommitsWithPRAndJiraLinks demoEnv "u" ([demoC0, demoC1] ++ [demoC2]) ∧
      printCommitsUntilTagFound ([demoC0, demoC1] ++ demoC2 :: [demoC3]) = some demoC2.hash) :=
  ⟨⟨by decide, by decide⟩,
    claim_C3_traversal_termination demoEnv "u" [demoC0, demoC1] demoC2 [demoC3]
      (by decide) (by decide)⟩

/-- Witness for claim C5: with an API that fails on every fetch, the commit
referencing PR 9999 is printed with the N/A link and the following commit is
still processed. -/
theorem claim_C5_witness :
    (mkEntry demoEnv initLoopState demoC9999 ∈
        (enrichWalk demoEnv [demoC9999, demoC1] initLoopState).1 ∧
      (mkEntry demoEnv initLoopState demoC9999).prNumber = some 9999 ∧
      demoEnv.api 9999 = none) ∧
    (mkEntry demoEnv initLoopState demoC9999).prLink = "N/A" :=
  ⟨⟨by decide, by decide, by decide⟩,
    (claim_C5_degraded_run demoEnv demoEnv initLoopState initLoopState
        [demoC9999, demoC1]).2 (mkEntry demoEnv initLoopState demoC9999)
      (by decide) 9999 (by decide) (by decide)⟩

/-! ### Lemmas about the credential check -/

/-- With no token and no cached handle, the per-commit step throws inside
the caught region before the API request: no PR data, no cached handle, and
no API network call. -/
theorem stepPR_no_token (env : Env) (s : LoopState) (c : WalkCommit)
    (hg : env.gt = none) (hh : s.handle = none) : stepPR env s c = (none, none, false) := by
  unfold stepPR
  cases hpn : extractPRNumber c.message with
  | none => simp [hh]
  | some n => simp [processPRCatch, fetchPRDetails, getOctokitSingleton, hg, hh]

/-- State evolution with no token: the handle stays empty and the API call
counter never moves. -/
theorem enrichWalk_no_token (env : Env) (hg : env.gt = none) :
    ∀ (cs : List WalkCommit) (s : LoopState), s.handle = none →
      (enrichWalk env cs s).2.apiCalls = s.apiCalls ∧ (enrichWalk env cs s).2.handle = none := by
  intro cs
  induction cs with
  | nil => intro s hh; exact ⟨rfl, hh⟩
  | cons c cs ih =>
    intro s hh
    have hns : nextState env s c =
        { handle := none, jiraIds := s.jiraIds, jiraLinks := s.jiraLinks,
          apiCalls := s.apiCalls } := by
      simp [nextState, stepPR_no_token env s c hg hh]
    by_cases hc : hasTagRef c.refs
    · simp [enrichWalk, hc, hns]
    · simp only [enrichWalk, hc, Bool.false_eq_true, if_false]
      have h2 := ih (nextState env s c) (by rw [hns])
      rw [hns] at h2 ⊢
      exact h2

/-- Counterexample to claim C6 as stated: with the GT credential absent, the
fromClone run does not fail fast — the walk completes over the whole commit
stream and produces the full degraded report, every commit showing the N/A
link, because every per-commit catch swallows the thrown credential error. -/
theorem claim_C6_counterexample :
    noTokenEnv.gt = none ∧
    (printCommitsWithPRAndJiraLinks noTokenEnv "u" [demoC9999, demoC1]).entries.map
      (fun e => e.commit) = [demoC9999, demoC1] ∧
    (printCommitsWithPRAndJiraLinks noTokenEnv "u" [demoC9999, demoC1]).entries.map
      (fun e => e.prLink) = ["N/A", "N/A"] := by
  refine ⟨rfl, ?_, ?_⟩ <;> decide

/-- Claim C6 as amended: the credential check happens in getOctokitSingleton
before any API network call, so with the token absent no API call is ever
attempted (in the tags variant this aborts tag fetching before the first
page request), and on success the handle is cached and returned without
consulting the environment again; but in the fromClone walk the per-commit
catches swallow the thrown error, so the run continues over every commit
with the N/A link instead of failing fast. -/
theorem claim_C6_token_amended :
    getOctokitSingleton none none = .error "GitHub token not found" ∧
    (∀ (gt : Option String) (h : String), getOctokitSingleton gt (some h) = .ok (h, some h)) ∧
    (∀ (env : Env) (s : LoopState) (c : WalkCommit), env.gt = none → s.handle = none →
      (stepPR env s c).2.2 = false) ∧
    (∀ (env : Env) (cs : List WalkCommit) (s : LoopState), env.gt = none → s.handle = none →
      (enrichWalk env cs s).2.apiCalls = s.apiCalls) ∧
    (∀ (env env2 : Env) (cs : List WalkCommit) (s s2 : LoopState),
      (enrichWalk env cs s).1.map (fun e => e.commit) =
        (enrichWalk env2 cs s2).1.map (fun e => e.commit)) ∧
    (∀ pages : List ApiTag, getAllTagsModel none pages = .error "GitHub token not found") := by
  refine ⟨rfl, fun gt h => rfl, ?_, ?_, ?_, fun pages => rfl⟩
  · intro env s c hg hh
    rw [stepPR_no_token env s c hg hh]
  · intro env cs s hg hh
    exact (enrichWalk_no_token env hg cs s hh).1
  · intro env env2 cs s s2
    exact enrichWalk_shape env env2 cs s s2

/-- Witness for the amended claim C6 at a concrete run: with the token
absent, the two-commit walk attempts zero API calls. -/
theorem claim_C6_token_amended_witness :
    (noTokenEnv.gt = none ∧ initLoopState.handle = none) ∧
    (enrichWalk noTokenEnv [demoC9999, demoC1] initLoopState).2.apiCalls =
      initLoopState.apiCalls :=
  ⟨⟨rfl, rfl⟩,
    claim_C6_token_amended.2.2.2.1 noTokenEnv [demoC9999, demoC1] initLoopState rfl rfl⟩

/-! ### Lemmas about the triple-bar split and the commit details parse -/

/-- A bar-free character list is split into a single component. -/
theorem splitTripleBar_no_bar (a : List Char) (ha : '|' ∉ a) : splitTripleBar a = [a] := by
  induction a with
  | nil => rfl
  | cons c a ih =>
    have hc : c ≠ '|' := fun h => ha (h ▸ List.mem_cons_self c a)
    have ha2 : '|' ∉ a := fun h => ha (List.mem_cons_of_mem c h)
    rw [splitTripleBar.eq_def]
    split
    next x heq => simp at heq
    next x rest heq => injection heq with h1 h2; exact absurd h1 hc
    next x c2 rest hno heq =>
      injection heq with h1 h2
      subst h1
      subst h2
      rw [ih ha2]

/-- Splitting a bar-free component followed by the delimiter detaches that
component. -/
theorem splitTripleBar_append (a b : List Char) (ha : '|' ∉ a) :
    splitTripleBar (a ++ '|' :: '|' :: '|' :: b) = a :: splitTripleBar b := by
  induction a with
  | nil => rfl
  | cons c a ih =>
    have hc : c ≠ '|' := fun h => ha (h ▸ List.mem_cons_self c a)
    have ha2 : '|' ∉ a := fun h => ha (List.mem_cons_of_mem c h)
    rw [List.cons_append, splitTripleBar.eq_def]
    split
    next x heq => simp at heq
    next x rest heq => injection heq with h1 h2; exact absurd h1 hc
    next x c2 rest hno heq =>
      injection heq with h1 h2
      subst h1
      rw [← h2, ih ha2]

/-- Dropping leading whitespace from a list whose head is not whitespace does
nothing. -/
theorem dropWhile_ws_eq_self (l : List Char)
    (h : ∀ c, l.head? = some c → c.isWhitespace = false) :
    l.dropWhile Char.isWhitespace = l := by
  cases l with
  | nil => rfl
  | cons c cs => simp [List.dropWhile_cons, h c rfl]

/-- Character-level trim is the identity on a list with no whitespace at
either end. -/
theorem charTrim_eq_self (l : List Char)
    (h1 : ∀ c, l.head? = some c → c.isWhitespace = false)
    (h2 : ∀ c, l.getLast? = some c → c.isWhitespace = false) :
    charTrim l = l := by
  unfold charTrim
  rw [dropWhile_ws_eq_self l h1,
    dropWhile_ws_eq_self l.reverse (fun c hc => h2 c (by rwa [List.head?_reverse] at hc)),
    List.reverse_reverse]

/-- Character content of the formatted git show line. -/
theorem rawShowLine_data (sha d2 d3 d4 s5 : String) :
    (rawShowLine sha d2 d3 d4 s5).data =
      sha.data ++ '|' :: '|' :: '|' :: (d2.data ++ '|' :: '|' :: '|' ::
        (d3.data ++ '|' :: '|' :: '|' :: (d4.data ++ '|' :: '|' :: '|' :: s5.data))) := by
  have h3 : ("|||" : String).data = ['|', '|', '|'] := rfl
  simp [rawShowLine, String.data_append, h3, List.append_assoc]

/-- Character-level trim is the identity on a formatted git show line whose
sha starts with a non-whitespace character and whose subject, when present,
ends with one. -/
theorem charTrim_raw (sha d2 d3 d4 s5 : String) (hsha : sha.data ≠ [])
    (hh : ∀ c, sha.data.head? = some c → c.isWhitespace = false)
    (hl : ∀ c, s5.data.getLast? = some c → c.isWhitespace = false) :
    charTrim (rawShowLine sha d2 d3 d4 s5).data = (rawShowLine sha d2 d3 d4 s5).data := by
  apply charTrim_eq_self
  · intro c hc
    rw [rawShowLine_data] at hc
    cases hs : sha.data with
    | nil => exact absurd hs hsha
    | cons c0 cs =>
      rw [hs, List.cons_append, List.head?_cons, Option.some.injEq] at hc
      rw [← hc]
      exact hh c0 (by rw [hs]; rfl)
  · intro c hc
    have hform : (rawShowLine sha d2 d3 d4 s5).data =
        (sha.data ++ '|' :: '|' :: '|' :: (d2.data ++ '|' :: '|' :: '|' ::
          (d3.data ++ '|' :: '|' :: '|' :: d4.data))) ++ (['|', '|', '|'] ++ s5.data) := by
      rw [rawShowLine_data]
      simp [List.append_assoc]
    rw [hform, List.getLast?_append_of_ne_nil _ (by simp)] at hc
    cases hs : s5.data with
    | nil =>
      rw [hs] at hc
      simp at hc
      rw [← hc]
      decide
    | cons c0 cs =>
      rw [hs, List.getLast?_append_of_ne_nil _ (by simp)] at hc
      exact hl c (by rw [hs]; exact hc)

/-- The parse of a formatted line whose trim is the identity reduces to
positional selection over the bar-free fields after empty-field filtering. -/
theorem parseRawShowLine (sha d2 d3 d4 s5 : String)
    (h1 : '|' ∉ sha.data) (h2 : '|' ∉ d2.data) (h3 : '|' ∉ d3.data)
    (h4 : '|' ∉ d4.data) (h5 : '|' ∉ s5.data)
    (htr : charTrim (rawShowLine sha d2 d3 d4 s5).data = (rawShowLine sha d2 d3 d4 s5).data) :
    parseCommitDetails (rawShowLine sha d2 d3 d4 s5) =
      (([sha, d2, d3, d4, s5].filter (fun p => p ≠ "")).get? 1,
        ([sha, d2, d3, d4, s5].filter (fun p => p ≠ "")).get? 2,
        ([sha, d2, d3, d4, s5].filter (fun p => p ≠ "")).get? 3,
        ([sha, d2, d3, d4, s5].filter (fun p => p ≠ "")).get? 4) := by
  have hmk : ∀ s : String, String.mk s.data = s := fun _ => rfl
  unfold parseCommitDetails
  rw [htr, rawShowLine_data, splitTripleBar_append _ _ h1, splitTripleBar_append _ _ h2,
    splitTripleBar_append _ _ h3, splitTripleBar_append _ _ h4, splitTripleBar_no_bar _ h5]
  simp [hmk]

/-! ### Lemmas about tag and commit correlation -/

/-- Appending a tag to the entry of a sha does not change the sha keys. -/
theorem pushTag_map_sha (sha t : String) (acc : List TagCommitDetails) :
    (pushTag sha t acc).map (fun e => e.sha) = acc.map (fun e => e.sha) := by
  induction acc with
  | nil => rfl
  | cons e es ih =>
    by_cases h : e.sha = sha
    · simp [pushTag, h]
    · simp [pushTag, h, ih]

/-- Updating a structure tags field in place. -/
theorem mkTagCommit_with (so s : String) (l l2 : List String) :
    { mkTagCommit so s l with tags := l2 } = mkTagCommit so s l2 := rfl

/-- Effect of pushTag on lookup: the entry found for the pushed sha gains the
tag, every other lookup is unchanged. -/
theorem pushTag_find (sha t s : String) (acc : List TagCommitDetails) :
    (pushTag sha t acc).find? (fun e => e.sha = s) =
      if sha = s then
        (acc.find? (fun e => e.sha = s)).map (fun e => { e with tags := e.tags ++ [t] })
      else acc.find? (fun e => e.sha = s) := by
  induction acc with
  | nil => simp [pushTag]
  | cons e es ih =>
    by_cases hes : e.sha = sha
    · by_cases hs : sha = s
      · have hE : e.sha = s := hes.trans hs
        simp [pushTag, hes, List.find?_cons, hE, hs]
      · have hE : ¬ e.sha = s := fun h => hs (hes ▸ h)
        simp [pushTag, hes, List.find?_cons, hE, hs]
    · by_cases hE : e.sha = s
      · have hs : ¬ sha = s := fun h => hes (by rw [h, hE])
        have hssha : ¬ s = sha := fun h => hs h.symm
        simp [pushTag, hes, List.find?_cons, hE, hs, hssha]
      · simp [pushTag, hes, List.find?_cons, hE, ih]

/-- Characterization of the correlation loop by lookup: an entry already in
the map accumulates the matching tags of the remaining stream, a fresh sha
gets a new entry holding exactly its matching tags, and a sha no tag resolves
to stays absent. -/
theorem fetchTagLoop_find (rp sc : String → String) :
    ∀ (ts : List String) (acc : List TagCommitDetails) (s : String),
      (fetchTagLoop rp sc ts acc).find? (fun e => e.sha = s) =
        match acc.find? (fun e => e.sha = s) with
        | some e => some { e with tags := e.tags ++ ts.filter (fun t => rp t = s) }
        | none =>
          if (ts.filter (fun t => rp t = s)).isEmpty then none
          else some (mkTagCommit (sc s) s (ts.filter (fun t => rp t = s))) := by
  intro ts
  induction ts with
  | nil =>
    intro acc s
    cases h : acc.find? (fun e => e.sha = s) with
    | none => simp [fetchTagLoop, h]
    | some e => simp [fetchTagLoop, h]
  | cons t ts ih =>
    intro acc s
    by_cases hany : acc.any (fun e => e.sha = rp t)
    · rw [show fetchTagLoop rp sc (t :: ts) acc = fetchTagLoop rp sc ts (pushTag (rp t) t acc)
        from by simp [fetchTagLoop, hany]]
      rw [ih (pushTag (rp t) t acc) s, pushTag_find (rp t) t s acc]
      by_cases hts : rp t = s
      · have hsome : ∃ e, acc.find? (fun e => e.sha = s) = some e := by
          rcases List.any_eq_true.mp hany with ⟨x, hx, hxs⟩
          cases hfind : acc.find? (fun e => e.sha = s) with
          | some e => exact ⟨e, rfl⟩
          | none =>
            exfalso
            rw [List.find?_eq_none] at hfind
            have hx2 : x.sha = s := by
              have hx3 := of_decide_eq_true hxs
              rw [hx3, hts]
            exact hfind x hx (by simpa using hx2)
        obtain ⟨e, he⟩ := hsome
        rw [if_pos hts, he]
        simp [List.filter_cons, hts]
      · rw [if_neg hts]
        simp only [List.filter_cons, hts, decide_eq_true_eq, if_false]
    · rw [show fetchTagLoop rp sc (t :: ts) acc =
          fetchTagLoop rp sc ts (acc ++ [mkTagCommit (sc (rp t)) (rp t) [t]])
        from by simp [fetchTagLoop, hany]]
      rw [ih _ s, List.find?_append]
      have hnotin : ∀ x ∈ acc, ¬ x.sha = rp t := by
        intro x hx hxe
        exact hany (List.any_eq_true.mpr ⟨x, hx, by simpa using hxe⟩)
      by_cases hts : rp t = s
      · have hnone : acc.find? (fun e => e.sha = s) = none := by
          rw [List.find?_eq_none]
          intro x hx
          simpa [hts] using hnotin x hx
        have hfe : [mkTagCommit (sc (rp t)) (rp t) [t]].find? (fun e => e.sha = s) =
            some (mkTagCommit (sc (rp t)) (rp t) [t]) := by
          simp [List.find?, mkTagCommit, hts]
        rw [hnone, hfe]
        subst hts
        simp [List.filter_cons, mkTagCommit_with, mkTagCommit]
      · have hfe : [mkTagCommit (sc (rp t)) (rp t) [t]].find? (fun e => e.sha = s) = none := by
          simp [List.find?, mkTagCommit, hts]
        rw [hfe]
        simp only [List.filter_cons, hts, decide_eq_true_eq, if_false, Option.or_none]

/-- The correlation loop keeps the sha keys of the map free of duplicates. -/
theorem fetchTagLoop_sha_nodup (rp sc : String → String) :
    ∀ (ts : List String) (acc : List TagCommitDetails),
      (acc.map (fun e => e.sha)).Nodup →
      ((fetchTagLoop rp sc ts acc).map (fun e => e.sha)).Nodup := by
  intro ts
  induction ts with
  | nil => intro acc h; exact h
  | cons t ts ih =>
    intro acc h
    by_cases hany : acc.any (fun e => e.sha = rp t)
    · rw [show fetchTagLoop rp sc (t :: ts) acc = fetchTagLoop rp sc ts (pushTag (rp t) t acc)
        from by simp [fetchTagLoop, hany]]
      exact ih _ (by rw [pushTag_map_sha]; exact h)
    · rw [show fetchTagLoop rp sc (t :: ts) acc =
          fetchTagLoop rp sc ts (acc ++ [mkTagCommit (sc (rp t)) (rp t) [t]])
        from by simp [fetchTagLoop, hany]]
      apply ih
      have hnotin : (rp t) ∉ acc.map (fun e => e.sha) := by
        intro hmem
        rcases List.mem_map.mp hmem with ⟨x, hx, hxe⟩
        exact hany (List.any_eq_true.mpr ⟨x, hx, by simpa using hxe⟩)
      rw [List.map_append]
      rw [show [mkTagCommit (sc (rp t)) (rp t) [t]].map (fun e => e.sha) = [rp t] from rfl,
        List.nodup_append]
      refine ⟨h, List.nodup_singleton _, ?_⟩
      intro a ha hamem
      rw [List.mem_singleton.mp hamem] at ha
      exact hnotin ha

/-- In a list with duplicate-free sha keys, lookup by the sha of a member
returns that member. -/
theorem find?_of_mem_sha_nodup (R : List TagCommitDetails)
    (h : (R.map (fun e => e.sha)).Nodup) (e : TagCommitDetails) (he : e ∈ R) :
    R.find? (fun x => x.sha = e.sha) = some e := by
  induction R with
  | nil => simp at he
  | cons f R ih =>
    rw [List.map_cons, List.nodup_cons] at h
    rcases List.mem_cons.mp he with hef | heR
    · subst hef
      simp [List.find?_cons]
    · have hne : ¬ f.sha = e.sha := by
        intro hfe
        have hmem : e.sha ∈ R.map (fun x => x.sha) := List.mem_map.mpr ⟨e, heR, rfl⟩
        rw [← hfe] at hmem
        exact h.1 hmem
      have hd : (decide (f.sha = e.sha)) = false := decide_eq_false hne
      simp only [List.find?_cons, hd]
      exact ih h.2 heR

/-- In a list with duplicate-free sha keys at most one entry has a given
sha. -/
theorem length_filter_sha_le_one (R : List TagCommitDetails)
    (h : (R.map (fun e => e.sha)).Nodup) (s : String) :
    (R.filter (fun e => e.sha = s)).length ≤ 1 := by
  induction R with
  | nil => simp
  | cons f R ih =>
    rw [List.map_cons, List.nodup_cons] at h
    by_cases hf : f.sha = s
    · have hnil : R.filter (fun e => e.sha = s) = [] := by
        rw [List.filter_eq_nil_iff]
        intro x hx hxs
        apply h.1
        have hmem : x.sha ∈ R.map (fun e => e.sha) := List.mem_map.mpr ⟨x, hx, rfl⟩
        rw [of_decide_eq_true hxs, ← hf] at hmem
        exact hmem
      simp [List.filter_cons, hf, hnil]
    · simp only [List.filter_cons, hf, decide_eq_true_eq, if_false]
      exact ih h.2

/-- Closed form of the correlation output lookup: a sha is present exactly
when a processed tag resolves to it, and its entry is built from its show
output and the matching tags in input order. -/
theorem fetchRecentTagCommits_find (rp sc : String → String) (tags : List String)
    (maxTags : Nat) (s : String) :
    (fetchRecentTagCommits rp sc tags maxTags).find? (fun e => e.sha = s) =
      (if ((tags.take maxTags).filter (fun t => rp t = s)).isEmpty then none
        else some (mkTagCommit (sc s) s ((tags.take maxTags).filter (fun t => rp t = s)))) := by
  rw [fetchRecentTagCommits, fetchTagLoop_find]
  rfl

/-- Claim C1: over any duplicate-free collection of tags that fits the tag
budget, the correlation produces duplicate-free sha keys, exactly one entry
for a sha exactly when some tag resolves to it, each entry lists exactly the
tags resolving to its sha in input order (hence each such tag name exactly
once), and the result is stable under reordering of the input: a permuted
input yields for every sha an entry whose tag list is a permutation of the
original one. -/
theorem claim_C1_dedup_invariant (rp sc : String → String) (tags : List String)
    (maxTags : Nat) (hnd : tags.Nodup) (hlen : tags.length ≤ maxTags) (s : String) :
    ((fetchRecentTagCommits rp sc tags maxTags).map (fun e => e.sha)).Nodup ∧
    ((fetchRecentTagCommits rp sc tags maxTags).filter (fun e => e.sha = s)).length =
      (if tags.any (fun t => rp t = s) then 1 else 0) ∧
    (∀ e ∈ fetchRecentTagCommits rp sc tags maxTags,
      e.tags = tags.filter (fun t => rp t = e.sha)) ∧
    (∀ e ∈ fetchRecentTagCommits rp sc tags maxTags,
      ∀ t ∈ tags, rp t = e.sha → e.tags.count t = 1) ∧
    (∀ tags2 : List String, tags2.Perm tags →
      ∀ e ∈ fetchRecentTagCommits rp sc tags maxTags,
        ∃ e2 ∈ fetchRecentTagCommits rp sc tags2 maxTags,
          e2.sha = e.sha ∧ e2.tags.Perm e.tags) := by
  have htake : tags.take maxTags = tags := List.take_of_length_le hlen
  have hnodup : ((fetchRecentTagCommits rp sc tags maxTags).map (fun e => e.sha)).Nodup :=
    fetchTagLoop_sha_nodup rp sc (tags.take maxTags) [] (by simp)
  have htagsOf : ∀ e ∈ fetchRecentTagCommits rp sc tags maxTags,
      e = mkTagCommit (sc e.sha) e.sha (tags.filter (fun t => rp t = e.sha)) := by
    intro e he
    have hfind := find?_of_mem_sha_nodup _ hnodup e he
    rw [fetchRecentTagCommits_find rp sc tags maxTags e.sha, htake] at hfind
    by_cases hemp : (tags.filter (fun t => rp t = e.sha)).isEmpty
    · rw [if_pos hemp] at hfind
      exact absurd hfind (by simp)
    · rw [if_neg hemp] at hfind
      exact (Option.some.injEq _ _ ▸ hfind).symm
  have htags2 : ∀ e ∈ fetchRecentTagCommits rp sc tags maxTags,
      e.tags = tags.filter (fun t => rp t = e.sha) := fun e he =>
    (congrArg TagCommitDetails.tags (htagsOf e he)).trans rfl
  refine ⟨hnodup, ?_, ?_, ?_, ?_⟩
  · cases hany : tags.any (fun t => rp t = s) with
    | false =>
      have hemp : ((tags.take maxTags).filter (fun t => rp t = s)).isEmpty = true := by
        rw [htake, List.isEmpty_iff, List.filter_eq_nil_iff]
        intro x hx hxs
        have hall := List.any_eq_false.mp hany x hx
        exact hall hxs
      have hfind := fetchRecentTagCommits_find rp sc tags maxTags s
      rw [if_pos hemp, List.find?_eq_none] at hfind
      have hfil : (fetchRecentTagCommits rp sc tags maxTags).filter
          (fun e => e.sha = s) = [] :=
        List.filter_eq_nil_iff.mpr (fun e he => hfind e he)
      simp [hfil]
    | true =>
      rcases List.any_eq_true.mp hany with ⟨x, hx, hxs⟩
      have hxs2 : rp x = s := of_decide_eq_true hxs
      have hemp : ¬ ((tags.take maxTags).filter (fun t => rp t = s)).isEmpty = true := by
        rw [htake, List.isEmpty_iff]
        intro hnil
        have hxf := List.filter_eq_nil_iff.mp hnil x hx
        simp [hxs2] at hxf
      have hfind := fetchRecentTagCommits_find rp sc tags maxTags s
      rw [if_neg hemp] at hfind
      have hmem := List.mem_of_find?_eq_some hfind
      have hfl : mkTagCommit (sc s) s ((tags.take maxTags).filter (fun t => rp t = s)) ∈
          (fetchRecentTagCommits rp sc tags maxTags).filter (fun e => e.sha = s) :=
        List.mem_filter.mpr ⟨hmem, by simp [mkTagCommit]⟩
      have h1 : 0 < ((fetchRecentTagCommits rp sc tags maxTags).filter
          (fun e => e.sha = s)).length :=
        List.length_pos.mpr (List.ne_nil_of_mem hfl)
      have h2 := length_filter_sha_le_one _ hnodup s
      simp only [if_true]
      omega
  · intro e he
    exact htags2 e he
  · intro e he t ht hte
    rw [htags2 e he]
    have hcf : List.count t (tags.filter (fun x => rp x = e.sha)) = List.count t tags :=
      List.count_filter (by simpa using hte)
    rw [hcf]
    exact List.count_eq_one_of_mem hnd ht
  · intro tags2 hperm e he
    have htake2 : tags2.take maxTags = tags2 :=
      List.take_of_length_le (by rw [hperm.length_eq]; exact hlen)
    have hne : ¬ ((tags2.take maxTags).filter (fun t => rp t = e.sha)).isEmpty = true := by
      rw [htake2, List.isEmpty_iff]
      intro hnil
      have hfe : e = mkTagCommit (sc e.sha) e.sha (tags.filter (fun t => rp t = e.sha)) :=
        htagsOf e he
      have hperm2 := hperm.filter (fun t => rp t = e.sha)
      rw [hnil] at hperm2
      have htnil : tags.filter (fun t => rp t = e.sha) = [] :=
        (List.Perm.nil_eq hperm2).symm
      have hfind := find?_of_mem_sha_nodup _ hnodup e he
      rw [fetchRecentTagCommits_find rp sc tags maxTags e.sha, htake, htnil] at hfind
      simp at hfind
    have hfind2 := fetchRecentTagCommits_find rp sc tags2 maxTags e.sha
    rw [if_neg hne] at hfind2
    refine ⟨mkTagCommit (sc e.sha) e.sha ((tags2.take maxTags).filter (fun t => rp t = e.sha)),
      List.mem_of_find?_eq_some hfind2, rfl, ?_⟩
    show ((tags2.take maxTags).filter (fun t => rp t = e.sha)).Perm e.tags
    rw [htags2 e he, htake2]
    exact hperm.filter (fun t => rp t = e.sha)

/-- Witness for claim C1: two distinct tag names resolving to the same sha
collapse into one entry carrying both names. -/
theorem claim_C1_witness :
    ((["v1.0.0", "v1.0.1"] : List String).Nodup ∧
      (["v1.0.0", "v1.0.1"] : List String).length ≤ 1000) ∧
    (((fetchRecentTagCommits (fun _ => "A") (fun _ => "raw") ["v1.0.0", "v1.0.1"] 1000).map
        (fun e => e.sha)).Nodup ∧
      ((fetchRecentTagCommits (fun _ => "A") (fun _ => "raw") ["v1.0.0", "v1.0.1"] 1000).filter
          (fun e => e.sha = "A")).length =
        (if (["v1.0.0", "v1.0.1"] : List String).any (fun t => (fun _ => "A") t = "A") then 1
          else 0) ∧
      (∀ e ∈ fetchRecentTagCommits (fun _ => "A") (fun _ => "raw") ["v1.0.0", "v1.0.1"] 1000,
        e.tags = (["v1.0.0", "v1.0.1"] : List String).filter (fun t => (fun _ => "A") t = e.sha)) ∧
      (∀ e ∈ fetchRecentTagCommits (fun _ => "A") (fun _ => "raw") ["v1.0.0", "v1.0.1"] 1000,
        ∀ t ∈ (["v1.0.0", "v1.0.1"] : List String), (fun _ => "A") t = e.sha →
          e.tags.count t = 1) ∧
      (∀ tags2 : List String, tags2.Perm ["v1.0.0", "v1.0.1"] →
        ∀ e ∈ fetchRecentTagCommits (fun _ => "A") (fun _ => "raw") ["v1.0.0", "v1.0.1"] 1000,
          ∃ e2 ∈ fetchRecentTagCommits (fun _ => "A") (fun _ => "raw") tags2 1000,
            e2.sha = e.sha ∧ e2.tags.Perm e.tags)) :=
  ⟨⟨by decide, by decide⟩,
    claim_C1_dedup_invariant (fun _ => "A") (fun _ => "raw") ["v1.0.0", "v1.0.1"] 1000
      (by decide) (by decide) "A"⟩

/-! ### Lemmas about set accumulation and the Jira identifier pipeline -/

/-- Membership after a set insertion. -/
theorem mem_setAdd (l : List String) (x y : String) :
    y ∈ setAdd l x ↔ y ∈ l ∨ y = x := by
  by_cases h : x ∈ l
  · simp only [setAdd, if_pos h]
    constructor
    · exact Or.inl
    · rintro (hy | rfl)
      · exact hy
      · exact h
  · simp [setAdd, h]

/-- Set insertion preserves freedom from duplicates. -/
theorem setAdd_nodup (l : List String) (x : String) (h : l.Nodup) : (setAdd l x).Nodup := by
  by_cases hx : x ∈ l
  · simpa [setAdd, hx] using h
  · rw [setAdd, if_neg hx, List.nodup_append]
    refine ⟨h, List.nodup_singleton x, ?_⟩
    intro a ha hamem
    rw [List.mem_singleton.mp hamem] at ha
    exact hx ha

/-- Membership after inserting a whole list. -/
theorem mem_setAddAll (l xs : List String) (y : String) :
    y ∈ setAddAll l xs ↔ y ∈ l ∨ y ∈ xs := by
  induction xs generalizing l with
  | nil => simp [setAddAll]
  | cons x xs ih =>
    rw [show setAddAll l (x :: xs) = setAddAll (setAdd l x) xs from rfl, ih, mem_setAdd]
    simp [or_assoc, or_comm, or_left_comm]

/-- Inserting a whole list preserves freedom from duplicates. -/
theorem setAddAll_nodup (l xs : List String) (h : l.Nodup) : (setAddAll l xs).Nodup := by
  induction xs generalizing l with
  | nil => exact h
  | cons x xs ih => exact ih (setAdd l x) (setAdd_nodup l x h)

/-- Folding mapped insertions equals inserting the mapped list. -/
theorem foldl_setAdd_map (f : String → String) (ms : List String) :
    ∀ ids : List String, ms.foldl (fun s i => setAdd s (f i)) ids = setAddAll ids (ms.map f) := by
  induction ms with
  | nil => intro ids; rfl
  | cons m ms ih => intro ids; exact ih (setAdd ids (f m))

/-- The identifier set built from one pull request is the original set
extended by the uppercased matches of the body and then of the title. -/
theorem addJiraFromPR_ids (ids links : List String) (d : PRData) :
    (addJiraFromPR ids links d).1 =
      setAddAll (setAddAll ids ((jiraMatches ((d.body).getD "")).map toUpperStr))
        ((jiraMatches d.title).map toUpperStr) := by
  cases hb : d.body with
  | none => simp [addJiraFromPR, hb, foldl_setAdd_map, jiraMatches, jiraScan, setAddAll]
  | some b => simp [addJiraFromPR, hb, foldl_setAdd_map]

/-- String concatenation cancels on the left. -/
theorem string_append_left_cancel (a b c : String) (h : a ++ b = a ++ c) : b = c := by
  have hd : a.data ++ b.data = a.data ++ c.data := by
    rw [← String.data_append, ← String.data_append, h]
  have hbc := List.append_cancel_left hd
  cases b with
  | mk db =>
    cases c with
    | mk dc =>
      simp only at hbc
      rw [hbc]

/-- Claim C4: the identifier extraction uppercases every match of the
hash-letter-digit pattern from the body and title of a linked pull request
and deduplicates them as a set; the two sentinel identifiers are excluded
before URL conversion; and the converted identifier URLs are unioned with
the raw extracted URLs with exact duplicates collapsed.  In particular the
claimed body yields exactly the two uppercased identifiers. -/
theorem claim_C4_jira_extraction :
    (addJiraFromPR [] []
        { html_url := "u", title := "tune", body := some "Fixes ABC-123 and see abc-456" }).1 =
      ["ABC-123", "ABC-456"] ∧
    filteredAndConvertedJiraLinks ["ABC-123", "OT-2", "OT-3"] =
      [jiraUrlBase ++ "ABC-123"] ∧
    (∀ ids : List String,
      (filteredAndConvertedJiraLinks ids).Nodup ∧
      jiraUrlBase ++ "OT-2" ∉ filteredAndConvertedJiraLinks ids ∧
      jiraUrlBase ++ "OT-3" ∉ filteredAndConvertedJiraLinks ids ∧
      ∀ y ∈ filteredAndConvertedJiraLinks ids,
        ∃ id ∈ ids, ¬ (id = "OT-2" ∨ id = "OT-3") ∧ y = jiraUrlBase ++ id) ∧
    (∀ (ids links : List String) (d : PRData), ids.Nodup → (addJiraFromPR ids links d).1.Nodup) ∧
    (∀ (ids links : List String) (d : PRData), ∀ y ∈ (addJiraFromPR ids links d).1,
      y ∈ ids ∨ ∃ m, (m ∈ jiraMatches ((d.body).getD "") ∨ m ∈ jiraMatches d.title) ∧
        y = toUpperStr m) ∧
    (∀ (env : Env) (base : String) (commits : List WalkCommit),
      (printCommitsWithPRAndJiraLinks env base commits).combined.Nodup ∧
      ∀ y, y ∈ (printCommitsWithPRAndJiraLinks env base commits).combined ↔
        (y ∈ filteredAndConvertedJiraLinks (printCommitsWithPRAndJiraLinks env base
          commits).jiraIds ∨
          y ∈ (printCommitsWithPRAndJiraLinks env base commits).jiraLinks)) := by
  have hmemconv : ∀ (ids : List String) (y : String), y ∈ filteredAndConvertedJiraLinks ids ↔
      y ∈ (ids.filter (fun id => ¬ (id = "OT-2" ∨ id = "OT-3"))).map
        (fun id => jiraUrlBase ++ id) := by
    intro ids y
    rw [filteredAndConvertedJiraLinks, mem_setAddAll]
    simp
  have hsent : ∀ (ids : List String) (sid : String), (sid = "OT-2" ∨ sid = "OT-3") →
      jiraUrlBase ++ sid ∉ filteredAndConvertedJiraLinks ids := by
    intro ids sid hsid hmem
    rw [hmemconv] at hmem
    rcases List.mem_map.mp hmem with ⟨id, hid, hideq⟩
    have hidm := List.mem_filter.mp hid
    have hc := string_append_left_cancel jiraUrlBase id sid hideq
    have hnot : ¬ (id = "OT-2" ∨ id = "OT-3") := by simpa using hidm.2
    rw [hc] at hnot
    exact hnot hsid
  refine ⟨?_, ?_, ?_, ?_, ?_, ?_⟩
  · decide
  · decide
  · intro ids
    refine ⟨setAddAll_nodup [] _ (by simp), hsent ids "OT-2" (Or.inl rfl),
      hsent ids "OT-3" (Or.inr rfl), ?_⟩
    intro y hy
    rw [hmemconv] at hy
    rcases List.mem_map.mp hy with ⟨id, hid, hideq⟩
    have hidm := List.mem_filter.mp hid
    exact ⟨id, hidm.1, by simpa using hidm.2, hideq.symm⟩
  · intro ids links d h
    rw [addJiraFromPR_ids]
    exact setAddAll_nodup _ _ (setAddAll_nodup _ _ h)
  · intro ids links d y hy
    rw [addJiraFromPR_ids, mem_setAddAll, mem_setAddAll] at hy
    rcases hy with (hy | hy) | hy
    · exact Or.inl hy
    · rcases List.mem_map.mp hy with ⟨m, hm, hmy⟩
      exact Or.inr ⟨m, Or.inl hm, hmy.symm⟩
    · rcases List.mem_map.mp hy with ⟨m, hm, hmy⟩
      exact Or.inr ⟨m, Or.inr hm, hmy.symm⟩
  · intro env base commits
    constructor
    · exact setAddAll_nodup _ _ (setAddAll_nodup [] _ (by simp))
    · intro y
      exact mem_setAddAll _ _ y

/-! ### Lemmas about the date sentinel of tags.ts -/

/-- Counterexample to claim C7 as stated: the sentinel date is not a minimum,
so it does not sort last in every date-descending ordering.  With one tag
carrying the sentinel (no author date) and one tag authoritatively dated
2005, the code sorts the sentinel group first and the 2005 group last. -/
theorem claim_C7_counterexample :
    (fetchTagDetails demoTagA none).date = sentinelDate ∧
    (shaGroupsSorted demoTagDetails).map (fun g => g.sha) = ["shaA", "shaB"] ∧
    ((shaGroupsSorted demoTagDetails).head?).map (fun g => g.date) = some sentinelDate ∧
    ((shaGroupsSorted demoTagDetails).getLast?).map (fun g => g.sha) = some "shaB" := by
  refine ⟨?_, ?_, ?_, ?_⟩ <;> decide

/-- Claim C7 as amended: the resolved date is never empty; with no
authoritative author date (or an empty one) the fixed sentinel
2007-10-29T02:42:39.000-07:00 is substituted; the sentinel parses to a finite
timestamp so comparisons are well defined; and the groups are sorted
date-descending, so a sentinel-dated group comes after every group dated
later than the sentinel, but before groups dated earlier (the sentinel is not
a global minimum). -/
theorem claim_C7_sentinel_amended :
    (∀ od : Option String, resolveDate od ≠ "") ∧
    (∀ od : Option String, (od = none ∨ od = some "") → resolveDate od = sentinelDate) ∧
    (∀ (t : ApiTag) (od : Option String),
      (fetchTagDetails t od).date = resolveDate od ∧ (fetchTagDetails t od).date ≠ "") ∧
    (isoToMs sentinelDate).isSome ∧
    (∀ l : List TagDetails, (shaGroupsSorted l).Sorted groupDateDesc) ∧
    (∀ (l : List TagDetails) (i j : Nat) (hi : i < (shaGroupsSorted l).length)
      (hj : j < (shaGroupsSorted l).length), i ≤ j →
      dateMsOf ((shaGroupsSorted l).get ⟨j, hj⟩).date ≤
        dateMsOf ((shaGroupsSorted l).get ⟨i, hi⟩).date) := by
  haveI htotal : IsTotal ShaGroup groupDateDesc :=
    ⟨fun a b => Int.le_total (dateMsOf b.date) (dateMsOf a.date)⟩
  haveI htrans : IsTrans ShaGroup groupDateDesc :=
    ⟨fun _ _ _ hab hbc => le_trans hbc hab⟩
  have hne : ∀ od : Option String, resolveDate od ≠ "" := by
    intro od
    cases od with
    | none => decide
    | some d =>
      by_cases hd : d = ""
      · rw [resolveDate, if_pos hd]
        decide
      · rw [resolveDate, if_neg hd]
        exact hd
  have hsorted : ∀ l : List TagDetails, (shaGroupsSorted l).Sorted groupDateDesc := by
    intro l
    exact List.sorted_insertionSort groupDateDesc (shaGroups l)
  refine ⟨hne, ?_, ?_, by decide, hsorted, ?_⟩
  · intro od hod
    rcases hod with h | h <;> simp [h, resolveDate]
  · intro t od
    exact ⟨rfl, hne od⟩
  · intro l i j hi hj hij
    rcases Nat.lt_or_ge i j with hlt | hge
    · have hp := List.pairwise_iff_get.mp (hsorted l)
      exact hp ⟨i, hi⟩ ⟨j, hj⟩ hlt
    · have hij2 : i = j := Nat.le_antisymm hij hge
      subst hij2
      exact le_refl _

/-! ### Lemmas about the last-5 tags report -/

/-- A bar-free character list is split on single bars into one component. -/
theorem splitBar_no_bar (a : List Char) (ha : '|' ∉ a) : splitBar a = [a] := by
  induction a with
  | nil => rfl
  | cons c a ih =>
    have hc : c ≠ '|' := fun h => ha (h ▸ List.mem_cons_self c a)
    have ha2 : '|' ∉ a := fun h => ha (List.mem_cons_of_mem c h)
    rw [splitBar.eq_def]
    split
    next x heq => simp at heq
    next x rest heq => injection heq with h1 h2; exact absurd h1 hc
    next x c2 rest hno heq =>
      injection heq with h1 h2
      subst h1
      subst h2
      rw [ih ha2]

/-- Splitting a bar-free component followed by a bar detaches the
component. -/
theorem splitBar_append (a b : List Char) (ha : '|' ∉ a) :
    splitBar (a ++ '|' :: b) = a :: splitBar b := by
  induction a with
  | nil => rfl
  | cons c a ih =>
    have hc : c ≠ '|' := fun h => ha (h ▸ List.mem_cons_self c a)
    have ha2 : '|' ∉ a := fun h => ha (List.mem_cons_of_mem c h)
    rw [List.cons_append, splitBar.eq_def]
    split
    next x heq => simp at heq
    next x rest heq => injection heq with h1 h2; exact absurd h1 hc
    next x c2 rest hno heq =>
      injection heq with h1 h2
      subst h1
      rw [← h2, ih ha2]

/-- Character content of the for-each-ref metadata line. -/
theorem forEachRefLine_data (m : TagMeta) :
    (forEachRefLine m).data =
      m.objecttype.data ++ '|' :: (m.shortName.data ++ '|' :: (m.taggerName.data ++ '|' ::
        (m.taggerEmail.data ++ '|' :: m.taggerDate.data))) := by
  have h1 : ("|" : String).data = ['|'] := rfl
  simp [forEachRefLine, String.data_append, h1, List.append_assoc]

/-- Report entry of an annotated tag: the tagger fields of the metadata line
are printed, with the date trimmed at the end and the subject trimmed. -/
theorem tagReportFor_annotated (refLine subjectOf : String → String) (t : String)
    (m : TagMeta) (hline : refLine t = forEachRefLine m) (hobj : m.objecttype = "tag")
    (hb1 : '|' ∉ m.shortName.data) (hb2 : '|' ∉ m.taggerName.data)
    (hb3 : '|' ∉ m.taggerEmail.data) (hb4 : '|' ∉ m.taggerDate.data) :
    tagReportFor refLine subjectOf t =
      TagReport.annotatedTag t m.taggerName m.taggerEmail (trimEnd m.taggerDate)
        (String.mk (charTrim (subjectOf t).data)) := by
  have hmk : ∀ s : String, String.mk s.data = s := fun _ => rfl
  have hdata : (refLine t).data = "tag".data ++ '|' :: (m.shortName.data ++ '|' ::
      (m.taggerName.data ++ '|' :: (m.taggerEmail.data ++ '|' :: m.taggerDate.data))) := by
    rw [hline, forEachRefLine_data, hobj]
  have hpre : ("tag".data).isPrefixOf (refLine t).data = true := by
    rw [hdata]
    exact List.isPrefixOf_iff_prefix.mpr ⟨_, rfl⟩
  have hb0 : '|' ∉ ("tag".data : List Char) := by decide
  rw [tagReportFor]
  rw [if_pos hpre]
  rw [hdata, splitBar_append _ _ hb0, splitBar_append _ _ hb1, splitBar_append _ _ hb2,
    splitBar_append _ _ hb3, splitBar_no_bar _ hb4]
  simp [hmk]

/-- Report entry of a lightweight tag: the metadata line of a commit target
does not start with the tag object type, so the warning is printed. -/
theorem tagReportFor_lightweight (refLine subjectOf : String → String) (t : String)
    (m : TagMeta) (hline : refLine t = forEachRefLine m) (hobj : m.objecttype = "commit") :
    tagReportFor refLine subjectOf t = TagReport.lightweightWarning t := by
  have hdata : (refLine t).data = "commit".data ++ '|' :: (m.shortName.data ++ '|' ::
      (m.taggerName.data ++ '|' :: (m.taggerEmail.data ++ '|' :: m.taggerDate.data))) := by
    rw [hline, forEachRefLine_data, hobj]
  have hpre : ("tag".data).isPrefixOf (refLine t).data = false := by
    rw [hdata]
    rfl
  rw [tagReportFor, if_neg (by simp [hpre])]

/-- Counterexample to claim C8 as stated: the report does not select the most
recently created tags.  In an environment where the backport tag v1.0.1 is
strictly the most recently created of six tags, the report emits five tags
and omits v1.0.1, because it takes the first five of the version-sorted
listing. -/
theorem claim_C8_counterexample :
    "v1.0.1" ∈ demoVersionSortedTags ∧
    (∀ t ∈ demoVersionSortedTags, t ≠ "v1.0.1" → demoCreated t < demoCreated "v1.0.1") ∧
    (printLast5TagsWithDetails demoVersionSortedTags demoRefLine demoSubject).length = 5 ∧
    "v1.0.1" ∉ (printLast5TagsWithDetails demoVersionSortedTags demoRefLine
      demoSubject).map TagReport.tagName := by
  refine ⟨?_, ?_, ?_, ?_⟩ <;> decide

/-- Claim C8 as amended: the report emits at most five tags, namely the
first five of the version-name-descending tag listing it is given (which
need not be the most recently created ones); every annotated tag is printed
with its tagger name, email, trimmed date and trimmed message subject, and
every lightweight tag with the warning instead. -/
theorem claim_C8_last5_amended (allTags : List String) (refLine subjectOf : String → String) :
    (printLast5TagsWithDetails allTags refLine subjectOf).length ≤ 5 ∧
    (printLast5TagsWithDetails allTags refLine subjectOf).map TagReport.tagName =
      allTags.take 5 ∧
    (∀ t ∈ allTags.take 5, ∀ m : TagMeta, refLine t = forEachRefLine m →
      '|' ∉ m.shortName.data → '|' ∉ m.taggerName.data → '|' ∉ m.taggerEmail.data →
      '|' ∉ m.taggerDate.data →
      (m.objecttype = "tag" →
        tagReportFor refLine subjectOf t =
          TagReport.annotatedTag t m.taggerName m.taggerEmail (trimEnd m.taggerDate)
            (String.mk (charTrim (subjectOf t).data))) ∧
      (m.objecttype = "commit" →
        tagReportFor refLine subjectOf t = TagReport.lightweightWarning t)) ∧
    (∀ t ∈ allTags.take 5, tagReportFor refLine subjectOf t ∈
      printLast5TagsWithDetails allTags refLine subjectOf) := by
  refine ⟨?_, ?_, ?_, ?_⟩
  · rw [printLast5TagsWithDetails, List.length_map]
    exact le_trans (Nat.le_of_eq (List.length_take 5 allTags)) (min_le_left 5 allTags.length)
  · rw [printLast5TagsWithDetails, List.map_map]
    have hid : TagReport.tagName ∘ tagReportFor refLine subjectOf = id := by
      funext t
      rw [Function.comp_apply, tagReportFor]
      by_cases h : ("tag".data).isPrefixOf (refLine t).data
      · rw [if_pos h]
        rfl
      · rw [if_neg h]
        rfl
    rw [hid, List.map_id]
  · intro t ht m hline hb1 hb2 hb3 hb4
    exact ⟨fun hobj => tagReportFor_annotated refLine subjectOf t m hline hobj hb1 hb2 hb3 hb4,
      fun hobj => tagReportFor_lightweight refLine subjectOf t m hline hobj⟩
  · intro t ht
    exact List.mem_map.mpr ⟨t, ht, rfl⟩

/-! ### Lemmas about the fromClone categorizer -/

/-- Evaluating the per-commit tag fold at one category commutes with
restricting to the insertions of that category. -/
theorem tagsFold_eval (dm : Option String → Int) (tagMatch : String → Option String)
    (c : String) (x : TagCommitDetails) :
    ∀ (ts : List String) (m : String → List TagCommitDetails),
      (ts.foldl (fun m2 tag =>
        match tagMatch tag with
        | none => m2
        | some cat => updateCat m2 cat (catInsert 3 dm (m2 cat) x)) m) c =
      ts.foldl (fun L tag => if tagMatch tag = some c then catInsert 3 dm L x else L) (m c) := by
  intro ts
  induction ts with
  | nil => intro m; rfl
  | cons t ts ih =>
    intro m
    cases h : tagMatch t with
    | none =>
      simp only [List.foldl_cons, h]
      rw [if_neg (by simp)]
      exact ih m
    | some cat =>
      simp only [List.foldl_cons, h]
      by_cases hc : cat = c
      · subst hc
        rw [ih (updateCat m cat (catInsert 3 dm (m cat) x)), if_pos rfl,
          show updateCat m cat (catInsert 3 dm (m cat) x) cat = catInsert 3 dm (m cat) x
            from by simp [updateCat]]
      · have hcc : ¬ c = cat := fun h2 => hc h2.symm
        rw [ih (updateCat m cat (catInsert 3 dm (m cat) x)), if_neg (by simp [hc]),
          show updateCat m cat (catInsert 3 dm (m cat) x) c = m c
            from by simp [updateCat, hcc]]

/-- Evaluating the fromClone categorizer at one category is a plain fold of
category insertions over the commits. -/
theorem printLatest_eval (dm : Option String → Int) (tagMatch : String → Option String)
    (tagCommits : List TagCommitDetails) (c : String) :
    printLatestTagsByCategory dm tagMatch tagCommits c =
      tagCommits.foldl (fun L x => x.tags.foldl
        (fun L2 tag => if tagMatch tag = some c then catInsert 3 dm L2 x else L2) L) [] := by
  suffices h : ∀ (comms : List TagCommitDetails) (m : String → List TagCommitDetails),
      (comms.foldl
        (fun m x =>
          x.tags.foldl
            (fun m2 tag =>
              match tagMatch tag with
              | none => m2
              | some cat => updateCat m2 cat (catInsert 3 dm (m2 cat) x))
            m)
        m) c =
      comms.foldl (fun L x => x.tags.foldl
        (fun L2 tag => if tagMatch tag = some c then catInsert 3 dm L2 x else L2) L) (m c) by
    exact h tagCommits (fun _ => [])
  intro comms
  induction comms with
  | nil => intro m; rfl
  | cons x comms ih =>
    intro m
    simp only [List.foldl_cons]
    rw [ih, tagsFold_eval]

/-- Weakening of the categorizer invariant to a smaller processed set. -/
theorem CatInv_mono (dm : Option String → Int) (tagMatch : String → Option String)
    (c : String) (K : Nat) (comms done1 done2 L : List TagCommitDetails)
    (hsub : ∀ y ∈ done2, y ∈ done1) (h : CatInv dm tagMatch c K comms done1 L) :
    CatInv dm tagMatch c K comms done2 L := by
  obtain ⟨h1, h2, h3, h4, h5, h6⟩ := h
  exact ⟨h1, h2, h3, h4, fun y hy => h5 y (hsub y hy), fun y hy => h6 y (hsub y hy)⟩

/-- A processed commit with no matching tag never constrains the retained
list. -/
theorem CatInv_add_nonmatching (dm : Option String → Int)
    (tagMatch : String → Option String) (c : String) (K : Nat)
    (comms done L : List TagCommitDetails) (x : TagCommitDetails) (hx : x ∈ comms)
    (hxm : ¬ matchesCat tagMatch c x) (h : CatInv dm tagMatch c K comms done L) :
    CatInv dm tagMatch c K comms (x :: done) L := by
  obtain ⟨h1, h2, h3, h4, h5, h6⟩ := h
  refine ⟨h1, h2, h3, h4, ?_, ?_⟩
  · intro y hy
    rcases List.mem_cons.mp hy with rfl | hy
    · exact hx
    · exact h5 y hy
  · intro y hy hm hns
    rcases List.mem_cons.mp hy with rfl | hy
    · exact absurd hm hxm
    · exact h6 y hy hm hns

/-- Core step of the fromClone categorizer: inserting a matching candidate
preserves the invariant, with the candidate recorded as processed. -/
theorem catInsert_inv (dm : Option String → Int) (tagMatch : String → Option String)
    (c : String) (K : Nat) (comms : List TagCommitDetails) (hinj : ShaInj comms)
    (done L : List TagCommitDetails) (x : TagCommitDetails) (hx : x ∈ comms)
    (hxm : matchesCat tagMatch c x) (h : CatInv dm tagMatch c K comms done L) :
    CatInv dm tagMatch c K comms (x :: done) (catInsert K dm L x) := by
  haveI : IsTotal TagCommitDetails (dateDesc dm) :=
    ⟨fun a b => Int.le_total (dm b.date) (dm a.date)⟩
  haveI : IsTrans TagCommitDetails (dateDesc dm) :=
    ⟨fun a b cc hab hbc => le_trans hbc hab⟩
  obtain ⟨hSort, hLen, hNd, hMem, hDoneMem, hExcl⟩ := h
  rw [catInsert]
  by_cases hmem : L.any (fun e => e.sha = x.sha)
  · rw [if_pos hmem]
    have hxsha : x.sha ∈ L.map (fun e => e.sha) := by
      rcases List.any_eq_true.mp hmem with ⟨e, heL, hes⟩
      exact List.mem_map.mpr ⟨e, heL, of_decide_eq_true hes⟩
    refine ⟨hSort, hLen, hNd, hMem, ?_, ?_⟩
    · intro y hy
      rcases List.mem_cons.mp hy with rfl | hy
      · exact hx
      · exact hDoneMem y hy
    · intro y hy hm hns
      rcases List.mem_cons.mp hy with rfl | hy
      · exact absurd hxsha hns
      · exact hExcl y hy hm hns
  · rw [if_neg hmem]
    have hxnotL : ∀ e ∈ L, ¬ e.sha = x.sha := by
      intro e he hes
      exact hmem (List.any_eq_true.mpr ⟨e, he, by simpa using hes⟩)
    set S := List.insertionSort (dateDesc dm) (L ++ [x]) with hSdef
    have hperm : S.Perm (L ++ [x]) := List.perm_insertionSort (dateDesc dm) (L ++ [x])
    have hSort2 : S.Sorted (dateDesc dm) := List.sorted_insertionSort (dateDesc dm) (L ++ [x])
    have hmemS : ∀ e, e ∈ S ↔ e ∈ L ∨ e = x := by
      intro e
      rw [hperm.mem_iff]
      simp
    have hmapnd : ((L ++ [x]).map (fun e => e.sha)).Nodup := by
      rw [List.map_append, List.nodup_append]
      refine ⟨hNd, by simp, ?_⟩
      intro a ha hamem
      simp only [List.map_cons, List.map_nil, List.mem_singleton] at hamem
      rcases List.mem_map.mp ha with ⟨e, heL, hesha⟩
      exact hxnotL e heL (by rw [hesha, hamem])
    have hSnd : (S.map (fun e => e.sha)).Nodup := ((hperm.map _).nodup_iff).mpr hmapnd
    have hSlen : S.length = L.length + 1 := by
      rw [hperm.length_eq, List.length_append, List.length_singleton]
    by_cases hfull : K ≤ L.length
    · have hLK : L.length = K := Nat.le_antisymm hLen hfull
      have hdropl : (S.drop K).length = 1 := by
        rw [List.length_drop, hSlen, hLK]
        omega
      obtain ⟨d, hd⟩ := List.length_eq_one.mp hdropl
      have hS : S.take K ++ [d] = S := by
        rw [← hd]
        exact List.take_append_drop K S
      have hpair : List.Pairwise (dateDesc dm) (S.take K ++ [d]) := by
        rw [hS]
        exact hSort2
      rw [List.pairwise_append] at hpair
      have hd_le : ∀ e ∈ S.take K, dm d.date ≤ dm e.date := by
        intro e he
        exact hpair.2.2 e he d (by simp)
      have htakeS : ∀ e ∈ S.take K, e ∈ S := fun e he => (List.take_sublist K S).subset he
      have htakend : ((S.take K).map (fun e => e.sha)).Nodup :=
        List.Nodup.sublist ((List.take_sublist K S).map _) hSnd
      have hdS : d ∈ S := by
        rw [← hS]
        simp
      have htklen : (S.take K).length = K := by
        rw [List.length_take, hSlen, hLK]
        omega
      refine ⟨hpair.1, ?_, htakend, ?_, ?_, ?_⟩
      · rw [htklen]
      · intro e he
        rcases (hmemS e).mp (htakeS e he) with heL | rfl
        · exact hMem e heL
        · exact ⟨hx, hxm⟩
      · intro y hy
        rcases List.mem_cons.mp hy with rfl | hy
        · exact hx
        · exact hDoneMem y hy
      · intro y hy hm hns
        refine ⟨by rw [htklen], ?_⟩
        rcases List.mem_cons.mp hy with rfl | hy
        · have hxS : y ∈ S := (hmemS y).mpr (Or.inr rfl)
          have hxnotT : y ∉ S.take K := by
            intro hxT
            exact hns (List.mem_map.mpr ⟨y, hxT, rfl⟩)
          have hxd : y = d := by
            rw [← hS] at hxS
            rcases List.mem_append.mp hxS with h1 | h1
            · exact absurd h1 hxnotT
            · simpa using h1
          intro e he
          rw [hxd]
          exact hd_le e he
        · by_cases hyL : y.sha ∈ L.map (fun e => e.sha)
          · rcases List.mem_map.mp hyL with ⟨e0, he0L, he0s⟩
            have hy_eq : e0 = y := hinj e0 (hMem e0 he0L).1 y (hDoneMem y hy) he0s
            have hyS : y ∈ S := (hmemS y).mpr (Or.inl (hy_eq ▸ he0L))
            have hynotT : y ∉ S.take K := fun hyT => hns (List.mem_map.mpr ⟨y, hyT, rfl⟩)
            have hyd : y = d := by
              rw [← hS] at hyS
              rcases List.mem_append.mp hyS with h1 | h1
              · exact absurd h1 hynotT
              · simpa using h1
            intro e he
            rw [hyd]
            exact hd_le e he
          · obtain ⟨hKL, hbound⟩ := hExcl y hy hm hyL
            intro e he
            rcases (hmemS e).mp (htakeS e he) with heL | hex
            · exact hbound e heL
            · have hdL : d ∈ L := by
                rcases List.mem_append.mp (hperm.subset hdS) with h1 | h1
                · exact h1
                · exfalso
                  have hdx : d = x := by simpa using h1
                  have hnd2 := hSnd
                  rw [← hS, List.map_append, List.nodup_append] at hnd2
                  exact hnd2.2.2 (List.mem_map.mpr ⟨e, he, rfl⟩) (by simp [hdx, hex])
              exact le_trans (hbound d hdL) (hd_le e he)
    · have hlt : L.length < K := Nat.lt_of_not_le hfull
      have htake : S.take K = S := List.take_of_length_le (by omega)
      rw [htake]
      refine ⟨hSort2, by omega, hSnd, ?_, ?_, ?_⟩
      · intro e he
        rcases (hmemS e).mp he with heL | rfl
        · exact hMem e heL
        · exact ⟨hx, hxm⟩
      · intro y hy
        rcases List.mem_cons.mp hy with rfl | hy
        · exact hx
        · exact hDoneMem y hy
      · intro y hy hm hns
        rcases List.mem_cons.mp hy with rfl | hy
        · exact absurd (List.mem_map.mpr ⟨y, (hmemS y).mpr (Or.inr rfl), rfl⟩) hns
        · exfalso
          have hns2 : y.sha ∉ L.map (fun e => e.sha) := by
            intro hyL
            apply hns
            rcases List.mem_map.mp hyL with ⟨e0, he0, hes⟩
            exact List.mem_map.mpr ⟨e0, (hmemS e0).mpr (Or.inl he0), hes⟩
          exact absurd (hExcl y hy hm hns2).1 hfull

/-- Processing the tags of one commit preserves the invariant, and once a
matching tag has been processed the commit counts as processed. -/
theorem tagsFoldCat_inv (dm : Option String → Int) (tagMatch : String → Option String)
    (c : String) (K : Nat) (comms : List TagCommitDetails) (hinj : ShaInj comms)
    (x : TagCommitDetails) (hx : x ∈ comms) :
    ∀ (ts : List String), (∀ t ∈ ts, t ∈ x.tags) → ∀ (done L : List TagCommitDetails),
      CatInv dm tagMatch c K comms done L →
      CatInv dm tagMatch c K comms done
        (ts.foldl (fun L2 tag => if tagMatch tag = some c then catInsert K dm L2 x else L2) L) ∧
      ((∃ t ∈ ts, tagMatch t = some c) →
        CatInv dm tagMatch c K comms (x :: done)
          (ts.foldl (fun L2 tag =>
            if tagMatch tag = some c then catInsert K dm L2 x else L2) L)) := by
  intro ts
  induction ts with
  | nil =>
    intro hts done L h
    refine ⟨h, ?_⟩
    rintro ⟨t, ht, _⟩
    exact absurd ht (List.not_mem_nil t)
  | cons t ts ih =>
    intro hts done L h
    have hts2 : ∀ t2 ∈ ts, t2 ∈ x.tags := fun t2 ht2 => hts t2 (by simp [ht2])
    by_cases hm : tagMatch t = some c
    · have hxm : matchesCat tagMatch c x := ⟨t, hts t (by simp), hm⟩
      have h1 := catInsert_inv dm tagMatch c K comms hinj done L x hx hxm h
      have h2 := ih hts2 (x :: done) (catInsert K dm L x) h1
      simp only [List.foldl_cons, if_pos hm]
      exact ⟨CatInv_mono dm tagMatch c K comms (x :: done) done _
        (fun y hy => List.mem_cons_of_mem x hy) h2.1, fun _ => h2.1⟩
    · have h2 := ih hts2 done L h
      simp only [List.foldl_cons, if_neg hm]
      refine ⟨h2.1, ?_⟩
      rintro ⟨t2, ht2, hm2⟩
      rcases List.mem_cons.mp ht2 with rfl | ht2
      · exact absurd hm2 hm
      · exact h2.2 ⟨t2, ht2, hm2⟩

/-- The category fold over a commit stream preserves the invariant with the
whole stream recorded as processed. -/
theorem commitsFoldCat_inv (dm : Option String → Int) (tagMatch : String → Option String)
    (c : String) (K : Nat) :
    ∀ (todo comms done L : List TagCommitDetails),
      ShaInj comms → (∀ y ∈ todo, y ∈ comms) →
      CatInv dm tagMatch c K comms done L →
      CatInv dm tagMatch c K comms (todo ++ done)
        (todo.foldl (fun L x => x.tags.foldl (fun L2 tag =>
          if tagMatch tag = some c then catInsert K dm L2 x else L2) L) L) := by
  intro todo
  induction todo with
  | nil =>
    intro comms done L hinj htodo h
    exact h
  | cons x todo ih =>
    intro comms done L hinj htodo h
    have hx : x ∈ comms := htodo x (by simp)
    have hstep := tagsFoldCat_inv dm tagMatch c K comms hinj x hx x.tags
      (fun t ht => ht) done L h
    have hnext : CatInv dm tagMatch c K comms (x :: done)
        (x.tags.foldl (fun L2 tag =>
          if tagMatch tag = some c then catInsert K dm L2 x else L2) L) := by
      by_cases hxm : matchesCat tagMatch c x
      · exact hstep.2 hxm
      · exact CatInv_add_nonmatching dm tagMatch c K comms done _ x hx hxm hstep.1
    have hrec := ih comms (x :: done) _ hinj (fun y hy => htodo y (by simp [hy])) hnext
    simp only [List.foldl_cons]
    refine CatInv_mono dm tagMatch c K comms (todo ++ x :: done) (x :: todo ++ done) _ ?_ hrec
    intro y hy
    simp only [List.mem_append, List.mem_cons] at hy ⊢
    tauto

/-- Category retention of the fromClone categorizer: the retained list of
every category holds at most three pairwise-distinct-sha matching
candidates, and dominates by date every matched candidate it excludes. -/
theorem printLatest_topK (dm : Option String → Int) (tagMatch : String → Option String)
    (comms : List TagCommitDetails) (c : String) (hinj : ShaInj comms) :
    (printLatestTagsByCategory dm tagMatch comms c).length ≤ 3 ∧
    ((printLatestTagsByCategory dm tagMatch comms c).map (fun e => e.sha)).Nodup ∧
    (∀ e ∈ printLatestTagsByCategory dm tagMatch comms c,
      e ∈ comms ∧ matchesCat tagMatch c e) ∧
    (∀ x ∈ comms, matchesCat tagMatch c x →
      x.sha ∉ (printLatestTagsByCategory dm tagMatch comms c).map (fun e => e.sha) →
      ∀ e ∈ printLatestTagsByCategory dm tagMatch comms c, dm x.date ≤ dm e.date) := by
  have h0 : CatInv dm tagMatch c 3 comms [] [] := by
    refine ⟨List.sorted_nil, by simp, by simp, by simp, by simp, by simp⟩
  have h := commitsFoldCat_inv dm tagMatch c 3 comms comms [] [] hinj (fun y hy => hy) h0
  rw [← printLatest_eval dm tagMatch comms c] at h
  simp only [List.append_nil] at h
  obtain ⟨h1, h2, h3, h4, h5, h6⟩ := h
  exact ⟨h2, h3, h4, fun x hx hm hns e he => (h6 x hx hm hns).2 e he⟩

/-! ### Lemmas about the unnamed-variant categorizer -/

/-- Evaluating the per-commit tag fold of the unnamed variant at one
category commutes with restricting to the insertions of that category. -/
theorem tagsFold0_eval (tagMatch : String → Option String)
    (c : String) (x : CommitDetails) :
    ∀ (ts : List String) (m : String → List CommitDetails),
      (ts.foldl (fun m2 tag =>
        match tagMatch tag with
        | none => m2
        | some cat =>
          if (m2 cat).any (fun sc => sc.sha = x.sha) ∨ 5 ≤ (m2 cat).length then m2
          else fun c2 => if c2 = cat then (m2 cat) ++ [x] else m2 c2) m) c =
      ts.foldl (fun L tag =>
        if tagMatch tag = some c then
          (if L.any (fun sc => sc.sha = x.sha) ∨ 5 ≤ L.length then L else L ++ [x])
        else L) (m c) := by
  intro ts
  induction ts with
  | nil => intro m; rfl
  | cons t ts ih =>
    intro m
    cases h : tagMatch t with
    | none =>
      simp only [List.foldl_cons, h]
      rw [if_neg (by simp)]
      exact ih m
    | some cat =>
      simp only [List.foldl_cons, h]
      by_cases hc : cat = c
      · subst hc
        by_cases hg : (m cat).any (fun sc => sc.sha = x.sha) ∨ 5 ≤ (m cat).length
        · rw [if_pos hg, ih m, if_pos rfl, if_pos hg]
        · rw [if_neg hg, ih (fun c2 => if c2 = cat then (m cat) ++ [x] else m c2)]
          congr 1
          rw [if_pos rfl, if_pos rfl, if_neg hg]
      · have hcc : ¬ c = cat := fun h2 => hc h2.symm
        have hval : (if (m cat).any (fun sc => sc.sha = x.sha) ∨ 5 ≤ (m cat).length then m
            else fun c2 => if c2 = cat then (m cat) ++ [x] else m c2) c = m c := by
          split
          · rfl
          · simp [hcc]
        rw [ih (if (m cat).any (fun sc => sc.sha = x.sha) ∨ 5 ≤ (m cat).length then m
            else fun c2 => if c2 = cat then (m cat) ++ [x] else m c2),
          hval, if_neg (by simp [hc])]

/-- Evaluating the unnamed-variant categorizer at one category is a plain
fold of guarded appends over the date-sorted commits. -/
theorem printLatest0_eval (dm : String → Int) (tagMatch : String → Option String)
    (commits : List CommitDetails) (c : String) :
    printLatestTagsByCategory0 dm tagMatch commits c =
      (List.insertionSort (dateDesc0 dm) commits).foldl
        (fun L x => x.tags.foldl (fun L2 tag =>
          if tagMatch tag = some c then
            (if L2.any (fun sc => sc.sha = x.sha) ∨ 5 ≤ L2.length then L2 else L2 ++ [x])
          else L2) L) [] := by
  suffices h : ∀ (comms : List CommitDetails) (m : String → List CommitDetails),
      (comms.foldl
        (fun m x =>
          x.tags.foldl
            (fun m2 tag =>
              match tagMatch tag with
              | none => m2
              | some cat =>
                if (m2 cat).any (fun sc => sc.sha = x.sha) ∨ 5 ≤ (m2 cat).length then m2
                else fun c2 => if c2 = cat then (m2 cat) ++ [x] else m2 c2)
            m)
        m) c =
      comms.foldl (fun L x => x.tags.foldl (fun L2 tag =>
        if tagMatch tag = some c then
          (if L2.any (fun sc => sc.sha = x.sha) ∨ 5 ≤ L2.length then L2 else L2 ++ [x])
        else L2) L) (m c) by
    exact h (List.insertionSort (dateDesc0 dm) commits) (fun _ => [])
  intro comms
  induction comms with
  | nil => intro m; rfl
  | cons x comms ih =>
    intro m
    simp only [List.foldl_cons]
    rw [ih, tagsFold0_eval]

/-- Weakening of the unnamed-variant invariant to a smaller processed set. -/
theorem CatInv0_mono (dm : String → Int) (tagMatch : String → Option String)
    (c : String) (comms done1 done2 L : List CommitDetails)
    (hsub : ∀ y ∈ done2, y ∈ done1) (h : CatInv0 dm tagMatch c comms done1 L) :
    CatInv0 dm tagMatch c comms done2 L := by
  obtain ⟨h1, h2, h3, h4, h5⟩ := h
  exact ⟨h1, h2, h3, fun y hy => h4 y (hsub y hy), fun y hy => h5 y (hsub y hy)⟩

/-- A processed commit with no matching tag never constrains the retained
list of the unnamed variant. -/
theorem CatInv0_add_nonmatching (dm : String → Int) (tagMatch : String → Option String)
    (c : String) (comms done L : List CommitDetails) (x : CommitDetails) (hx : x ∈ comms)
    (hxm : ¬ matchesCat0 tagMatch c x) (h : CatInv0 dm tagMatch c comms done L) :
    CatInv0 dm tagMatch c comms (x :: done) L := by
  obtain ⟨h1, h2, h3, h4, h5⟩ := h
  refine ⟨h1, h2, h3, ?_, ?_⟩
  · intro y hy
    rcases List.mem_cons.mp hy with rfl | hy
    · exact hx
    · exact h4 y hy
  · intro y hy hm hns
    rcases List.mem_cons.mp hy with rfl | hy
    · exact absurd hm hxm
    · exact h5 y hy hm hns

/-- Core step of the unnamed-variant categorizer: attempting to append a
matching candidate that is no newer than anything retained preserves the
invariant. -/
theorem cat0Step_inv (dm : String → Int) (tagMatch : String → Option String)
    (c : String) (comms done L : List CommitDetails) (x : CommitDetails)
    (hx : x ∈ comms) (hxm : matchesCat0 tagMatch c x)
    (HxL : ∀ e ∈ L, dm x.date ≤ dm e.date)
    (h : CatInv0 dm tagMatch c comms done L) :
    CatInv0 dm tagMatch c comms (x :: done)
      (if L.any (fun sc => sc.sha = x.sha) ∨ 5 ≤ L.length then L else L ++ [x]) ∧
    (∀ e ∈ (if L.any (fun sc => sc.sha = x.sha) ∨ 5 ≤ L.length then L else L ++ [x]),
      e ∈ L ∨ e = x) := by
  obtain ⟨h1, h2, h3, h4, h5⟩ := h
  by_cases hg : L.any (fun sc => sc.sha = x.sha) ∨ 5 ≤ L.length
  · rw [if_pos hg]
    refine ⟨⟨h1, h2, h3, ?_, ?_⟩, fun e he => Or.inl he⟩
    · intro y hy
      rcases List.mem_cons.mp hy with rfl | hy
      · exact hx
      · exact h4 y hy
    · intro y hy hm hns
      rcases List.mem_cons.mp hy with rfl | hy
      · rcases hg with hany | hlen
        · rcases List.any_eq_true.mp hany with ⟨e, heL, hes⟩
          exact absurd (List.mem_map.mpr ⟨e, heL, of_decide_eq_true hes⟩) hns
        · exact ⟨hlen, HxL⟩
      · exact h5 y hy hm hns
  · rw [if_neg hg]
    rw [not_or] at hg
    obtain ⟨hga, hgl⟩ := hg
    have hxnotL : ∀ e ∈ L, ¬ e.sha = x.sha := by
      intro e he hes
      exact hga (List.any_eq_true.mpr ⟨e, he, by simpa using hes⟩)
    refine ⟨⟨?_, ?_, ?_, ?_, ?_⟩, fun e he => by simpa using List.mem_append.mp he⟩
    · rw [List.length_append, List.length_singleton]
      omega
    · rw [List.map_append, List.nodup_append]
      refine ⟨h2, by simp, ?_⟩
      intro a ha hamem
      simp only [List.map_cons, List.map_nil, List.mem_singleton] at hamem
      rcases List.mem_map.mp ha with ⟨e, heL, hesha⟩
      exact hxnotL e heL (by rw [hesha, hamem])
    · intro e he
      rcases List.mem_append.mp he with heL | hex
      · exact h3 e heL
      · rw [List.mem_singleton.mp hex]
        exact ⟨hx, hxm⟩
    · intro y hy
      rcases List.mem_cons.mp hy with rfl | hy
      · exact hx
      · exact h4 y hy
    · intro y hy hm hns
      exfalso
      rcases List.mem_cons.mp hy with rfl | hy
      · exact hns (List.mem_map.mpr ⟨y, by simp, rfl⟩)
      · have hns2 : y.sha ∉ L.map (fun e => e.sha) := by
          intro hyL
          exact hns (by rw [List.map_append]; exact List.mem_append.mpr (Or.inl hyL))
        exact absurd (h5 y hy hm hns2).1 hgl

/-- Processing the tags of one commit of the unnamed variant preserves the
invariant; once a matching tag has been processed the commit counts as
processed; and the retained list grows by at most that commit. -/
theorem tagsFold0_inv (dm : String → Int) (tagMatch : String → Option String)
    (c : String) (comms : List CommitDetails) (x : CommitDetails) (hx : x ∈ comms) :
    ∀ (ts : List String), (∀ t ∈ ts, t ∈ x.tags) → ∀ (done L : List CommitDetails),
      CatInv0 dm tagMatch c comms done L → (∀ e ∈ L, dm x.date ≤ dm e.date) →
      (CatInv0 dm tagMatch c comms done
        (ts.foldl (fun L2 tag =>
          if tagMatch tag = some c then
            (if L2.any (fun sc => sc.sha = x.sha) ∨ 5 ≤ L2.length then L2 else L2 ++ [x])
          else L2) L) ∧
      ((∃ t ∈ ts, tagMatch t = some c) →
        CatInv0 dm tagMatch c comms (x :: done)
          (ts.foldl (fun L2 tag =>
            if tagMatch tag = some c then
              (if L2.any (fun sc => sc.sha = x.sha) ∨ 5 ≤ L2.length then L2 else L2 ++ [x])
            else L2) L)) ∧
      (∀ e ∈ (ts.foldl (fun L2 tag =>
          if tagMatch tag = some c then
            (if L2.any (fun sc => sc.sha = x.sha) ∨ 5 ≤ L2.length then L2 else L2 ++ [x])
          else L2) L), e ∈ L ∨ e = x)) := by
  intro ts
  induction ts with
  | nil =>
    intro hts done L h hxL
    refine ⟨h, ?_, fun e he => Or.inl he⟩
    rintro ⟨t, ht, _⟩
    exact absurd ht (List.not_mem_nil t)
  | cons t ts ih =>
    intro hts done L h hxL
    have hts2 : ∀ t2 ∈ ts, t2 ∈ x.tags := fun t2 ht2 => hts t2 (by simp [ht2])
    by_cases hm : tagMatch t = some c
    · have hxm : matchesCat0 tagMatch c x := ⟨t, hts t (by simp), hm⟩
      have hstep := cat0Step_inv dm tagMatch c comms done L x hx hxm hxL h
      have hxL2 : ∀ e ∈ (if L.any (fun sc => sc.sha = x.sha) ∨ 5 ≤ L.length then L
          else L ++ [x]), dm x.date ≤ dm e.date := by
        intro e he
        rcases hstep.2 e he with heL | rfl
        · exact hxL e heL
        · exact le_refl _
      have h2 := ih hts2 (x :: done) _ hstep.1 hxL2
      simp only [List.foldl_cons, if_pos hm]
      refine ⟨CatInv0_mono dm tagMatch c comms (x :: done) done _
        (fun y hy => List.mem_cons_of_mem x hy) h2.1, fun _ => h2.1, ?_⟩
      intro e he
      rcases h2.2.2 e he with hmem | rfl
      · rcases hstep.2 e hmem with heL | rfl
        · exact Or.inl heL
        · exact Or.inr rfl
      · exact Or.inr rfl
    · have h2 := ih hts2 done L h hxL
      simp only [List.foldl_cons, if_neg hm]
      refine ⟨h2.1, ?_, h2.2.2⟩
      rintro ⟨t2, ht2, hm2⟩
      rcases List.mem_cons.mp ht2 with rfl | ht2
      · exact absurd hm2 hm
      · exact h2.2.1 ⟨t2, ht2, hm2⟩

/-- The category fold of the unnamed variant over a date-descending commit
stream preserves the invariant with the whole stream processed. -/
theorem commitsFold0_inv (dm : String → Int) (tagMatch : String → Option String)
    (c : String) :
    ∀ (todo comms done L : List CommitDetails),
      ShaInj0 comms → (∀ y ∈ todo, y ∈ comms) →
      List.Pairwise (dateDesc0 dm) todo →
      (∀ e ∈ L, ∀ z ∈ todo, dm z.date ≤ dm e.date) →
      CatInv0 dm tagMatch c comms done L →
      CatInv0 dm tagMatch c comms (todo ++ done)
        (todo.foldl (fun L x => x.tags.foldl (fun L2 tag =>
          if tagMatch tag = some c then
            (if L2.any (fun sc => sc.sha = x.sha) ∨ 5 ≤ L2.length then L2 else L2 ++ [x])
          else L2) L) L) := by
  intro todo
  induction todo with
  | nil =>
    intro comms done L hinj htodo hpair hrem h
    exact h
  | cons x todo ih =>
    intro comms done L hinj htodo hpair hrem h
    have hx : x ∈ comms := htodo x (by simp)
    have hxL : ∀ e ∈ L, dm x.date ≤ dm e.date := fun e he => hrem e he x (by simp)
    have hstep := tagsFold0_inv dm tagMatch c comms x hx x.tags (fun t ht => ht) done L h hxL
    rw [List.pairwise_cons] at hpair
    have hnext : CatInv0 dm tagMatch c comms (x :: done)
        (x.tags.foldl (fun L2 tag =>
          if tagMatch tag = some c then
            (if L2.any (fun sc => sc.sha = x.sha) ∨ 5 ≤ L2.length then L2 else L2 ++ [x])
          else L2) L) := by
      by_cases hxm : matchesCat0 tagMatch c x
      · exact hstep.2.1 hxm
      · exact CatInv0_add_nonmatching dm tagMatch c comms done _ x hx hxm hstep.1
    have hrem2 : ∀ e ∈ (x.tags.foldl (fun L2 tag =>
        if tagMatch tag = some c then
          (if L2.any (fun sc => sc.sha = x.sha) ∨ 5 ≤ L2.length then L2 else L2 ++ [x])
        else L2) L), ∀ z ∈ todo, dm z.date ≤ dm e.date := by
      intro e he z hz
      rcases hstep.2.2 e he with heL | rfl
      · exact hrem e heL z (by simp [hz])
      · exact hpair.1 z hz
    have hrec := ih comms (x :: done) _ hinj (fun y hy => htodo y (by simp [hy]))
      hpair.2 hrem2 hnext
    simp only [List.foldl_cons]
    refine CatInv0_mono dm tagMatch c comms (todo ++ x :: done) (x :: todo ++ done) _ ?_ hrec
    intro y hy
    simp only [List.mem_append, List.mem_cons] at hy ⊢
    tauto

/-- Category retention of the unnamed-variant categorizer: the retained list
of every category holds at most five pairwise-distinct-sha matching
candidates, and dominates by date every matched candidate it excludes. -/
theorem printLatest0_topK (dm : String → Int) (tagMatch : String → Option String)
    (comms : List CommitDetails) (c : String) (hinj : ShaInj0 comms) :
    (printLatestTagsByCategory0 dm tagMatch comms c).length ≤ 5 ∧
    ((printLatestTagsByCategory0 dm tagMatch comms c).map (fun e => e.sha)).Nodup ∧
    (∀ e ∈ printLatestTagsByCategory0 dm tagMatch comms c,
      e ∈ comms ∧ matchesCat0 tagMatch c e) ∧
    (∀ x ∈ comms, matchesCat0 tagMatch c x →
      x.sha ∉ (printLatestTagsByCategory0 dm tagMatch comms c).map (fun e => e.sha) →
      ∀ e ∈ printLatestTagsByCategory0 dm tagMatch comms c, dm x.date ≤ dm e.date) := by
  haveI : IsTotal CommitDetails (dateDesc0 dm) :=
    ⟨fun a b => Int.le_total (dm b.date) (dm a.date)⟩
  haveI : IsTrans CommitDetails (dateDesc0 dm) :=
    ⟨fun a b cc hab hbc => le_trans hbc hab⟩
  have hperm : (List.insertionSort (dateDesc0 dm) comms).Perm comms :=
    List.perm_insertionSort (dateDesc0 dm) comms
  have hpair : List.Pairwise (dateDesc0 dm) (List.insertionSort (dateDesc0 dm) comms) :=
    List.sorted_insertionSort (dateDesc0 dm) comms
  have h0 : CatInv0 dm tagMatch c comms [] [] := by
    refine ⟨by simp, by simp, by simp, by simp, by simp⟩
  have h := commitsFold0_inv dm tagMatch c (List.insertionSort (dateDesc0 dm) comms)
    comms [] [] hinj (fun y hy => hperm.subset hy) hpair (by simp) h0
  rw [← printLatest0_eval dm tagMatch comms c] at h
  simp only [List.append_nil] at h
  obtain ⟨h1, h2, h3, h4, h5⟩ := h
  refine ⟨h1, h2, h3, ?_⟩
  intro x hx hm hns e he
  exact (h5 x (hperm.mem_iff.mpr hx) hm hns).2 e he

/-- Claim C2: in both categorizers, after processing any sha-injective
sequence of tagged commits, every category retains at most K entries (three
in fromClone, five in the unnamed variant), with no two entries sharing a
sha, every retained entry a matched candidate, and every retained entry
dated at least as recently as every matched candidate that was seen but
excluded from the category: the list is the true top-K by date among
matched candidates. -/
theorem claim_C2_category_retention (dm : Option String → Int) (dm0 : String → Int)
    (tagMatch : String → Option String) (tagCommits : List TagCommitDetails)
    (commits0 : List CommitDetails) (hinj : ShaInj tagCommits)
    (hinj0 : ShaInj0 commits0) (c : String) :
    ((printLatestTagsByCategory dm tagMatch tagCommits c).length ≤ 3 ∧
      ((printLatestTagsByCategory dm tagMatch tagCommits c).map (fun e => e.sha)).Nodup ∧
      (∀ e ∈ printLatestTagsByCategory dm tagMatch tagCommits c,
        e ∈ tagCommits ∧ matchesCat tagMatch c e) ∧
      (∀ x ∈ tagCommits, matchesCat tagMatch c x →
        x.sha ∉ (printLatestTagsByCategory dm tagMatch tagCommits c).map (fun e => e.sha) →
        ∀ e ∈ printLatestTagsByCategory dm tagMatch tagCommits c,
          dm x.date ≤ dm e.date)) ∧
    ((printLatestTagsByCategory0 dm0 tagMatch commits0 c).length ≤ 5 ∧
      ((printLatestTagsByCategory0 dm0 tagMatch commits0 c).map (fun e => e.sha)).Nodup ∧
      (∀ e ∈ printLatestTagsByCategory0 dm0 tagMatch commits0 c,
        e ∈ commits0 ∧ matchesCat0 tagMatch c e) ∧
      (∀ x ∈ commits0, matchesCat0 tagMatch c x →
        x.sha ∉ (printLatestTagsByCategory0 dm0 tagMatch commits0 c).map (fun e => e.sha) →
        ∀ e ∈ printLatestTagsByCategory0 dm0 tagMatch commits0 c,
          dm0 x.date ≤ dm0 e.date)) :=
  ⟨printLatest_topK dm tagMatch tagCommits c hinj,
    printLatest0_topK dm0 tagMatch commits0 c hinj0⟩

/-- Witness for claim C2 at concrete commit collections and the v
category. -/
theorem claim_C2_witness :
    (ShaInj demoTagCommits ∧ ShaInj0 demoCommits0) ∧
    (((printLatestTagsByCategory demoDm demoTagMatch demoTagCommits "v").length ≤ 3 ∧
      ((printLatestTagsByCategory demoDm demoTagMatch demoTagCommits "v").map
        (fun e => e.sha)).Nodup ∧
      (∀ e ∈ printLatestTagsByCategory demoDm demoTagMatch demoTagCommits "v",
        e ∈ demoTagCommits ∧ matchesCat demoTagMatch "v" e) ∧
      (∀ x ∈ demoTagCommits, matchesCat demoTagMatch "v" x →
        x.sha ∉ (printLatestTagsByCategory demoDm demoTagMatch demoTagCommits "v").map
          (fun e => e.sha) →
        ∀ e ∈ printLatestTagsByCategory demoDm demoTagMatch demoTagCommits "v",
          demoDm x.date ≤ demoDm e.date)) ∧
    ((printLatestTagsByCategory0 demoDm0 demoTagMatch demoCommits0 "v").length ≤ 5 ∧
      ((printLatestTagsByCategory0 demoDm0 demoTagMatch demoCommits0 "v").map
        (fun e => e.sha)).Nodup ∧
      (∀ e ∈ printLatestTagsByCategory0 demoDm0 demoTagMatch demoCommits0 "v",
        e ∈ demoCommits0 ∧ matchesCat0 demoTagMatch "v" e) ∧
      (∀ x ∈ demoCommits0, matchesCat0 demoTagMatch "v" x →
        x.sha ∉ (printLatestTagsByCategory0 demoDm0 demoTagMatch demoCommits0 "v").map
          (fun e => e.sha) →
        ∀ e ∈ printLatestTagsByCategory0 demoDm0 demoTagMatch demoCommits0 "v",
          demoDm0 x.date ≤ demoDm0 e.date))) :=
  ⟨⟨by decide, by decide⟩,
    claim_C2_category_retention demoDm demoDm0 demoTagMatch demoTagCommits demoCommits0
      (by decide) (by decide) "v"⟩

/-- Claim C10: the commit detail line is split on the triple-bar delimiter
and empty components are discarded before positional assignment, so with all
four displayed fields non-empty the entry carries exactly those values, while
any empty field shifts every later component one position left and leaves the
trailing entry fields undefined.  The five parts cover the full line and the
four single-empty-field lines. -/
theorem claim_C10_empty_field_shift (sha date an ae subj : String) (s : String)
    (tags : List String)
    (hbar : '|' ∉ sha.data ∧ '|' ∉ date.data ∧ '|' ∉ an.data ∧ '|' ∉ ae.data ∧ '|' ∉ subj.data)
    (hne : sha ≠ "" ∧ date ≠ "" ∧ an ≠ "" ∧ ae ≠ "" ∧ subj ≠ "")
    (hsha : ∀ c, sha.data.head? = some c → c.isWhitespace = false)
    (hsubj : ∀ c, subj.data.getLast? = some c → c.isWhitespace = false) :
    mkTagCommit (rawShowLine sha date an ae subj) s tags =
      { sha := s, date := some date, tags := tags, message := some subj,
        authorName := some an, authorEmail := some ae } ∧
    mkTagCommit (rawShowLine sha date an ae "") s tags =
      { sha := s, date := some date, tags := tags, message := none,
        authorName := some an, authorEmail := some ae } ∧
    mkTagCommit (rawShowLine sha date an "" subj) s tags =
      { sha := s, date := some date, tags := tags, message := none,
        authorName := some an, authorEmail := some subj } ∧
    mkTagCommit (rawShowLine sha date "" ae subj) s tags =
      { sha := s, date := some date, tags := tags, message := none,
        authorName := some ae, authorEmail := some subj } ∧
    mkTagCommit (rawShowLine sha "" an ae subj) s tags =
      { sha := s, date := some an, tags := tags, message := none,
        authorName := some ae, authorEmail := some subj } := by
  obtain ⟨hb1, hb2, hb3, hb4, hb5⟩ := hbar
  obtain ⟨hn1, hn2, hn3, hn4, hn5⟩ := hne
  have hbe : '|' ∉ ("" : String).data := by decide
  have hle : ∀ c : Char, ("" : String).data.getLast? = some c → c.isWhitespace = false := by
    intro c hc
    simp at hc
  have hdn : sha.data ≠ [] := by
    intro h
    apply hn1
    have hmk : sha = String.mk sha.data := rfl
    rw [hmk, h]
  refine ⟨?_, ?_, ?_, ?_, ?_⟩
  · rw [mkTagCommit, parseRawShowLine sha date an ae subj hb1 hb2 hb3 hb4 hb5
      (charTrim_raw sha date an ae subj hdn hsha hsubj)]
    simp [hn1, hn2, hn3, hn4, hn5]
  · rw [mkTagCommit, parseRawShowLine sha date an ae "" hb1 hb2 hb3 hb4 hbe
      (charTrim_raw sha date an ae "" hdn hsha hle)]
    simp [hn1, hn2, hn3, hn4]
  · rw [mkTagCommit, parseRawShowLine sha date an "" subj hb1 hb2 hb3 hbe hb5
      (charTrim_raw sha date an "" subj hdn hsha hsubj)]
    simp [hn1, hn2, hn3, hn5]
  · rw [mkTagCommit, parseRawShowLine sha date "" ae subj hb1 hb2 hbe hb4 hb5
      (charTrim_raw sha date "" ae subj hdn hsha hsubj)]
    simp [hn1, hn2, hn4, hn5]
  · rw [mkTagCommit, parseRawShowLine sha "" an ae subj hb1 hbe hb3 hb4 hb5
      (charTrim_raw sha "" an ae subj hdn hsha hsubj)]
    simp [hn1, hn3, hn4, hn5]

/-- Witness for claim C10 at a concrete commit detail line. -/
theorem claim_C10_witness :
    (('|' ∉ ("abc123" : String).data ∧ '|' ∉ ("2024-01-01T00:00:00Z" : String).data ∧
        '|' ∉ ("Ann Dev" : String).data ∧ '|' ∉ ("ann@x.io" : String).data ∧
        '|' ∉ ("release: bump" : String).data) ∧
      (("abc123" : String) ≠ "" ∧ ("2024-01-01T00:00:00Z" : String) ≠ "" ∧
        ("Ann Dev" : String) ≠ "" ∧ ("ann@x.io" : String) ≠ "" ∧
        ("release: bump" : String) ≠ "")) ∧
    mkTagCommit (rawShowLine "abc123" "2024-01-01T00:00:00Z" "Ann Dev" "ann@x.io" "release: bump")
        "abc123" ["v1.0.0"] =
      { sha := "abc123", date := some "2024-01-01T00:00:00Z", tags := ["v1.0.0"],
        message := some "release: bump", authorName := some "Ann Dev",
        authorEmail := some "ann@x.io" } ∧
    mkTagCommit (rawShowLine "abc123" "2024-01-01T00:00:00Z" "Ann Dev" "ann@x.io" "")
        "abc123" ["v1.0.0"] =
      { sha := "abc123", date := some "2024-01-01T00:00:00Z", tags := ["v1.0.0"],
        message := none, authorName := some "Ann Dev", authorEmail := some "ann@x.io" } :=
  ⟨⟨⟨by decide, by decide, by decide, by decide, by decide⟩,
      ⟨by decide, by decide, by decide, by decide, by decide⟩⟩,
    (claim_C10_empty_field_shift "abc123" "2024-01-01T00:00:00Z" "Ann Dev" "ann@x.io"
        "release: bump" "abc123" ["v1.0.0"]
        ⟨by decide, by decide, by decide, by decide, by decide⟩
        ⟨by decide, by decide, by decide, by decide, by decide⟩
        (by decide) (by decide)).1,
    (claim_C10_empty_field_shift "abc123" "2024-01-01T00:00:00Z" "Ann Dev" "ann@x.io"
        "release: bump" "abc123" ["v1.0.0"]
        ⟨by decide, by decide, by decide, by decide, by decide⟩
        ⟨by decide, by decide, by decide, by decide, by decide⟩
        (by decide) (by decide)).2.1⟩

end TagPlay
